import Mathlib

/-!
Shallow embedding of the gomoku core (src/src/core.hpp) and of the binary
serialization primitives (src/binary.hpp), with theorems checking the
specification's claims against it.

Machine integers are modelled as `Nat`/`Int` with explicit reduction
modulo `2 ^ 32` where C++ unsigned overflow can occur.
-/

/-- Truncation to 32 bits, as C++ `uint32_t` arithmetic does. -/
def u32 (n : Nat) : Nat := n % 2 ^ 32

/-- Reinterpretation of a 32-bit unsigned value as a signed `int32_t`
(two's complement). -/
def toInt32 (n : Nat) : Int := if n < 2 ^ 31 then (n : Int) else (n : Int) - 2 ^ 32

/-- A stone on the board (`enum struct Stone : u8 { None, Black, White }`). -/
inductive Stone where
  | none : Stone
  | black : Stone
  | white : Stone
deriving DecidableEq, Repr

/-- Returns the opposite stone; the C++ `switch` falls through to `None`
for `Stone::None`. -/
def opposite : Stone → Stone
  | Stone.black => Stone.white
  | Stone.white => Stone.black
  | Stone.none => Stone.none

/-- Axes on the board. -/
inductive Axis where
  | vertical : Axis
  | ascending : Axis
  | horizontal : Axis
  | descending : Axis
deriving DecidableEq, Repr

/-- The constant array `AXES`, in source order. -/
def AXES : List Axis := [Axis.vertical, Axis.ascending, Axis.horizontal, Axis.descending]

/-- Unit vector in the direction of the axis. -/
def unit_vec : Axis → Int × Int
  | Axis.vertical => (0, 1)
  | Axis.ascending => (1, -1)
  | Axis.horizontal => (1, 0)
  | Axis.descending => (1, 1)

/-- A 2D point with `uint32_t` coordinates, modelled as `Nat` values below
`2 ^ 32`; coordinate arithmetic wraps modulo `2 ^ 32`. -/
structure Point where
  x : Nat
  y : Nat
deriving DecidableEq, Repr

/-- One `uint32_t` coordinate step: `c + d` in 32-bit wrapping arithmetic. -/
def stepU32 (c : Nat) (d : Int) : Nat := (((c : Int) + d) % (2 ^ 32 : Int)).toNat

/-- The adjacent point in the direction of the axis
(`forward ? Point(x + dx, y + dy) : Point(x - dx, y - dy)`). -/
def Point.adjacent (p : Point) (a : Axis) (forward : Bool) : Point :=
  let v := unit_vec a
  match forward with
  | true => ⟨stepU32 p.x v.1, stepU32 p.y v.2⟩
  | false => ⟨stepU32 p.x (-v.1), stepU32 p.y (-v.2)⟩

/-- A contiguous row of stones on the board. -/
structure Row where
  start : Point
  stop : Point
deriving DecidableEq, Repr

/-- The board side length. -/
def BOARD_SIZE : Nat := 15

/-- Checks if a point is within the board boundary. -/
def in_board (p : Point) : Prop := p.x < BOARD_SIZE ∧ p.y < BOARD_SIZE

instance (p : Point) : Decidable (in_board p) := by
  unfold in_board; infer_instance

/-- The board matrix: occupancy of each cell.  The C++ `vector<Stone>` of
size `15 * 15` indexed by `y * 15 + x` is modelled as a total function;
every access in the source is either guarded by an `in_board` check or
throws `std::out_of_range` first, and the embedding mirrors those guards
at each call site. -/
def Board : Type := Point → Stone

/-- A fresh board: every cell `Stone::None`. -/
def emptyBoard : Board := fun _ => Stone.none

/-- Sets the stone at a point (`Board::set`, unchecked cell write). -/
def bset (b : Board) (p : Point) (s : Stone) : Board :=
  fun q => if q = p then s else b q

/-- Unsets the stone at a point (`Board::unset`). -/
def bunset (b : Board) (p : Point) : Board := bset b p Stone.none

/-- The scan loop of `Board::scan_row`: starting from `cur`, repeatedly move
to the adjacent point in the given direction while it is in board and holds
`stone`; returns the number of steps taken and the final point.  The C++
`while` loop runs at most 14 iterations (the tracked coordinate strictly
increases or decreases inside `[0, 15)`), so fuel `15` is never exhausted
from an in-board start; `scanF_eq` below proves the closed characterization. -/
def scanF (b : Board) (stone : Stone) (a : Axis) (forward : Bool) : Nat → Point → Nat × Point
  | 0, cur => (0, cur)
  | fuel + 1, cur =>
    let next := cur.adjacent a forward
    if in_board next ∧ b next = stone then
      let r := scanF b stone a forward fuel next
      (r.1 + 1, r.2)
    else (0, cur)

/-- Scans the row through a point in the direction of the axis
(`Board::scan_row`); returns the run length and the row endpoints.
Callers establish `in_board p` (the C++ `at(p)` would throw otherwise). -/
def scan_row (b : Board) (p : Point) (a : Axis) : Nat × Row :=
  let s := b p
  let back := scanF b s a false 15 p
  let fwd := scanF b s a true 15 p
  (1 + back.1 + fwd.1, ⟨back.2, fwd.2⟩)

/-- Searches for a win row through the point (`Board::find_win_row`):
`None` cell yields none; otherwise the four axes are scanned in the fixed
order of `AXES` and the row of the first axis whose run length reaches 5 is
returned.  Callers establish `in_board p`. -/
def find_win_row (b : Board) (p : Point) : Option Row :=
  if b p = Stone.none then Option.none
  else (AXES.find? fun a => 5 ≤ (scan_row b p a).1).map fun a => (scan_row b p a).2

/-- A move on the board: a (position, stone) pair. -/
structure Move where
  pos : Point
  stone : Stone
deriving DecidableEq, Repr

/-- A win witnessed on the board: a (move index, row) pair. -/
structure Win where
  index : Nat
  row : Row
deriving DecidableEq, Repr

/-- A gomoku game: the board projection, the full move record, the cursor
index and the cached win. -/
structure Game where
  board : Board
  moves : List Move
  index : Nat
  win : Option Win

/-- The default-constructed game: empty board, no moves, cursor 0, no win. -/
def emptyGame : Game := ⟨emptyBoard, [], 0, Option.none⟩

/-- The default move value used for in-range `List.getD` reads of the move
record (C++ `moves.at(i)`; all reads below are in range whenever
`index ≤ moves.length`, which every reachable game satisfies). -/
def mv0 : Move := ⟨⟨0, 0⟩, Stone.none⟩

/-- `Game::make_move`.  The first component models the C++ control flow:
`none` is the `std::out_of_range` exception thrown by `board.at(p)` before
any mutation, `some false` the occupied-cell rejection, `some true` success.
The second component is the observable game state after the call. -/
def make_move (g : Game) (p : Point) (s : Stone) : Option Bool × Game :=
  if ¬ in_board p then (Option.none, g)
  else if g.board p ≠ Stone.none then (some false, g)
  else
    let b2 := bset g.board p s
    let idx := g.index + 1
    let stale := match g.win with
      | Option.none => true
      | some w => idx ≤ w.index
    let w2 := if stale then
        match find_win_row b2 p with
        | some row => some ⟨idx, row⟩
        | Option.none => Option.none
      else g.win
    (some true, ⟨b2, g.moves.take g.index ++ [⟨p, s⟩], idx, w2⟩)

/-- `Game::undo`: undoes the last move (if any). -/
def undo (g : Game) : Bool × Game :=
  if g.index = 0 then (false, g)
  else
    let idx := g.index - 1
    let last := g.moves.getD idx mv0
    (true, ⟨bunset g.board last.pos, g.moves, idx, g.win⟩)

/-- `Game::redo`: redoes the next move (if any). -/
def redo (g : Game) : Bool × Game :=
  if g.moves.length ≤ g.index then (false, g)
  else
    let next := g.moves.getD g.index mv0
    (true, ⟨bset g.board next.pos next.stone, g.moves, g.index + 1, g.win⟩)

/-- The downward loop of `Game::jump`: unsets `moves[i-1], ..., moves[i-n]`
in that order. -/
def unsetIter (ms : List Move) (b : Board) (i : Nat) : Nat → Board
  | 0 => b
  | n + 1 => unsetIter ms (bunset b (ms.getD (i - 1) mv0).pos) (i - 1) n

/-- The upward loop of `Game::jump`: sets `moves[i], ..., moves[i+n-1]`
in that order. -/
def setIter (ms : List Move) (b : Board) (i : Nat) : Nat → Board
  | 0 => b
  | n + 1 =>
    let m := ms.getD i mv0
    setIter ms (bset b m.pos m.stone) (i + 1) n

/-- `Game::jump`: jumps to the given move index by undoing or redoing moves.
`none` in the first component is the thrown `std::out_of_range`. -/
def jump (g : Game) (to_index : Nat) : Option Bool × Game :=
  if g.moves.length < to_index then (Option.none, g)
  else if g.index = to_index then (some false, g)
  else if to_index < g.index then
    (some true, ⟨unsetIter g.moves g.board g.index (g.index - to_index), g.moves, to_index, g.win⟩)
  else
    (some true, ⟨setIter g.moves g.board g.index (to_index - g.index), g.moves, to_index, g.win⟩)

/-- `Game::first_win`: the cached win, if its index is within the past. -/
def first_win (g : Game) : Option Win :=
  match g.win with
  | some w => if w.index ≤ g.index then some w else Option.none
  | Option.none => Option.none

/-- `Game::infer_turn`: the next stone to play, based on past moves. -/
def infer_turn (g : Game) : Stone :=
  if g.index = 0 then Stone.black else opposite ((g.moves.getD (g.index - 1) mv0).stone)

/-- `Game::total_moves`. -/
def total_moves (g : Game) : Nat := g.moves.length

/-- `Game::past_moves`: the moves in the past. -/
def past_moves (g : Game) : List Move := g.moves.take g.index

/-- The position byte of a move: `pos.y * BOARD_SIZE + pos.x`. -/
def posByte (p : Point) : Nat := p.y * BOARD_SIZE + p.x

/-- `QByteArray::insert(i, char)` as used by `Game::serialize`: Qt bounds
the position from below (a negative position is a no-op in release builds)
and pads with spaces when inserting past the end. -/
def qInsert (buf : List Nat) (i : Int) (c : Nat) : List Nat :=
  if i < 0 then buf
  else if buf.length < i.toNat then buf ++ List.replicate (i.toNat - buf.length) 0x20 ++ [c]
  else buf.take i.toNat ++ c :: buf.drop i.toNat

/-- The per-move loop of `Game::serialize`, with the loop state
(`last_stone`, `in_sequence`) and the buffer accumulated so far; the
trailing `END_SEQUENCE` of the source is appended when the moves run out. -/
def serLoop : List Move → Stone → Bool → List Nat → List Nat
  | [], _, inSeq, buf => if inSeq then buf ++ [0xfe] else buf
  | m :: rest, last, inSeq, buf =>
    let st :=
      if last = m.stone then
        if inSeq then (buf, inSeq)
        else (qInsert buf ((buf.length : Int) - 1) 0xff, true)
      else
        if inSeq then (buf ++ [0xfe], false) else (buf, inSeq)
    serLoop rest m.stone st.2 (st.1 ++ [posByte m.pos])

/-- `Game::serialize`: Format B encoding of the past moves. -/
def serialize (g : Game) : List Nat :=
  let ms := past_moves g
  let buf :=
    match ms with
    | m :: _ => if m.stone = Stone.white then [0xff, 0xfe] else []
    | [] => []
  serLoop ms Stone.none false buf

/-- The byte loop of `Game::deserialize`, threading the state
(game, current stone, `in_sequence`); `none` aborts the whole decode. -/
def deStep : List Nat → Game × Stone × Bool → Option (Game × Stone × Bool)
  | [], st => some st
  | byte :: rest, (g, stone, inSeq) =>
    if byte = 0xff then
      if inSeq then Option.none else deStep rest (g, stone, true)
    else if byte = 0xfe then
      if inSeq then deStep rest (g, opposite stone, false) else Option.none
    else
      let pos : Point := ⟨byte % BOARD_SIZE, byte / BOARD_SIZE⟩
      if ¬ in_board pos then Option.none
      else match make_move g pos stone with
        | (some true, g2) => deStep rest (g2, if inSeq then stone else opposite stone, inSeq)
        | _ => Option.none

/-- `Game::deserialize`: rebuilds a game from a byte stream, or fails. -/
def deserialize (buf : List Nat) : Option Game :=
  match deStep buf (emptyGame, Stone.black, false) with
  | some (g, _, false) => some g
  | some (_, _, true) => Option.none
  | Option.none => Option.none

/-- `zigzag_encode` from src/binary.hpp: `(x << 1) ^ (x >> 31)` on `int32_t`,
returned as `uint32_t`.  The left shift wraps modulo `2 ^ 32`; the arithmetic
right shift by 31 yields the sign mask `0xffffffff` or `0`. -/
def zigzag_encode (x : Int) : Nat :=
  (((2 * x) % (2 ^ 32 : Int)).toNat) ^^^ (if x < 0 then 2 ^ 32 - 1 else 0)

/-- `zigzag_decode` from src/binary.hpp: `(x >> 1) ^ -(x & 1)` on `uint32_t`,
returned as `int32_t`. -/
def zigzag_decode (x : Nat) : Int :=
  toInt32 ((x >>> 1) ^^^ (if x &&& 1 = 1 then 2 ^ 32 - 1 else 0))

/-- The `scatter` lambda inside `interleave`: spreads the low 16 bits of `x`
to the even bit positions. -/
def scatter (x : Nat) : Nat :=
  let x1 := u32 (x ||| (x <<< 8)) &&& 0x00ff00ff
  let x2 := u32 (x1 ||| (x1 <<< 4)) &&& 0x0f0f0f0f
  let x3 := u32 (x2 ||| (x2 <<< 2)) &&& 0x33333333
  u32 (x3 ||| (x3 <<< 1)) &&& 0x55555555

/-- `interleave` from src/binary.hpp: Morton interleaving, even bits from
`x`, odd bits from `y`. -/
def interleave (x y : Nat) : Nat :=
  scatter x ||| u32 (scatter y <<< 1)

/-- The `gather` lambda inside `deinterleave`: collects the even bit
positions of `x` into the low 16 bits. -/
def gather (x : Nat) : Nat :=
  let x1 := x &&& 0x55555555
  let x2 := u32 (x1 ||| (x1 >>> 1)) &&& 0x33333333
  let x3 := u32 (x2 ||| (x2 >>> 2)) &&& 0x0f0f0f0f
  let x4 := u32 (x3 ||| (x3 >>> 4)) &&& 0x00ff00ff
  u32 (x4 ||| (x4 >>> 8)) &&& 0x0000ffff

/-- `deinterleave` from src/binary.hpp. -/
def deinterleave (i : Nat) : Nat × Nat :=
  (gather i, gather (i >>> 1))

/-- `write_var_u14` from src/binary.hpp, as the list of bytes appended to
the buffer: a 1-or-2-byte varint for values below `2 ^ 14`. -/
def write_var_u14 (val : Nat) : List Nat :=
  if val &&& 0x3f80 ≠ 0 then [(val &&& 0x7f) ||| 0x80, (val >>> 7) &&& 0x7f]
  else [val &&& 0x7f]

/-- `read_var_u14` from src/binary.hpp: reads a varint from `buf` starting
at position `read`; returns the decoded value (or `none` on failure) paired
with the final value of the in-out `read` cursor. -/
def read_var_u14 (buf : List Nat) (read : Nat) : Option Nat × Nat :=
  if buf.length ≤ read then (Option.none, read)
  else
    let lo := buf.getD read 0
    if lo &&& 0x80 ≠ 0 then
      if buf.length ≤ read + 1 then (Option.none, read + 1)
      else
        let hi := buf.getD (read + 1) 0
        if hi &&& 0x80 ≠ 0 then (Option.none, read + 2)
        else (some ((hi <<< 7) ||| (lo &&& 0x7f)), read + 2)
    else (some (lo &&& 0x7f), read + 1)

/-- Modelled from the spec (§4.3 Format A, whose game-level encoder is not
in src/): one move `(x, y)` with player bit `t` is encoded by re-centering
the point on the board middle, zigzag-encoding each signed offset,
bit-interleaving the two unsigned halves, shifting left by one with the
player bit in the low position, and emitting the result as a varint.
The primitives themselves are the src/binary.hpp functions above. -/
def encodeMoveA (x y : Nat) (t : Nat) : List Nat :=
  let dx := (x : Int) - 7
  let dy := (y : Int) - 7
  let code := interleave (zigzag_encode dx) (zigzag_encode dy)
  write_var_u14 ((code <<< 1) ||| t)

/-- Modelled from the spec (§4.3 Format A): the per-move decode pipeline,
inverting each step of `encodeMoveA`. -/
def decodeMoveA (buf : List Nat) : Option ((Nat × Nat) × Nat) :=
  match read_var_u14 buf 0 with
  | (some v, _) =>
    let t := v &&& 1
    let code := v >>> 1
    let xy := deinterleave code
    let xi := zigzag_decode xy.1 + 7
    let yi := zigzag_decode xy.2 + 7
    if 0 ≤ xi ∧ 0 ≤ yi then some ((xi.toNat, yi.toNat), t) else Option.none
  | (Option.none, _) => Option.none

/-- Replay of a move list onto an empty board: the board that results from
performing each recorded placement in order. -/
def applyMoves (ms : List Move) : Board :=
  ms.foldl (fun b m => bset b m.pos m.stone) emptyBoard

/-- Well-formedness of a move record: each recorded move was placed on a
cell that is empty in the replay of the moves before it (this is exactly
what a successful `make_move` guarantees at recording time). -/
def MovesOK (ms : List Move) : Prop :=
  ∀ k, k < ms.length → applyMoves (ms.take k) (ms.getD k mv0).pos = Stone.none

/-- Games reachable from the empty game by any sequence of `make_move`,
`undo`, `redo` and `jump` calls, successful or not (the state after a
failing or throwing call is the unchanged state). -/
inductive Reachable : Game → Prop where
  | empty : Reachable emptyGame
  | mk (g : Game) (p : Point) (s : Stone) : Reachable g → Reachable (make_move g p s).2
  | und (g : Game) : Reachable g → Reachable (undo g).2
  | red (g : Game) : Reachable g → Reachable (redo g).2
  | jmp (g : Game) (t : Nat) : Reachable g → Reachable (jump g t).2

/-- Games reachable from `g` by any sequence of `undo`, `redo` and `jump`
calls only (no new moves). -/
inductive URJ (g : Game) : Game → Prop where
  | refl : URJ g g
  | und (g2 : Game) : URJ g g2 → URJ g (undo g2).2
  | red (g2 : Game) : URJ g g2 → URJ g (redo g2).2
  | jmp (g2 : Game) (t : Nat) : URJ g g2 → URJ g (jump g2 t).2

/-- The coordinate that moves by one at each step along an axis: `y` for
the vertical axis, `x` for the three others. -/
def coord (a : Axis) (p : Point) : Nat :=
  match a with
  | Axis.vertical => p.y
  | _ => p.x

/-- The remaining steps available in a direction before the tracked
coordinate leaves `[0, 15)`: an upper bound on the scan-loop iterations. -/
def room (a : Axis) (f : Bool) (q : Point) : Nat :=
  match f with
  | true => 14 - coord a q
  | false => coord a q

/-- The point `k` adjacency steps away from `p` in the given direction. -/
def ptAfter (p : Point) (a : Axis) (forward : Bool) : Nat → Point
  | 0 => p
  | k + 1 => (ptAfter p a forward k).adjacent a forward

/-- The chain condition: the first `k` steps away from `p` in the given
direction all stay in board and hold the stone `s`. -/
def goodChain (b : Board) (s : Stone) (p : Point) (a : Axis) (forward : Bool) (k : Nat) : Prop :=
  ∀ j, j ≤ k → 1 ≤ j → in_board (ptAfter p a forward j) ∧ b (ptAfter p a forward j) = s

instance (b : Board) (s : Stone) (p : Point) (a : Axis) (forward : Bool) (k : Nat) :
    Decidable (goodChain b s p a forward k) := by
  unfold goodChain; infer_instance

/-- The mathematical run extent: the greatest number of consecutive steps
from `p` in the given direction that stay in board and hold `s` (at most 14
steps are possible on a 15x15 board). -/
def runCount (b : Board) (s : Stone) (p : Point) (a : Axis) (forward : Bool) : Nat :=
  Nat.findGreatest (goodChain b s p a forward) 14

/-- The length of the maximal contiguous same-stone run through `p` along
the axis, defined from the mathematical run extents. -/
def runLen (b : Board) (p : Point) (a : Axis) : Nat :=
  1 + runCount b (b p) p a false + runCount b (b p) p a true

/-- The full maximal row through `p` along the axis: from the farthest good
backward point to the farthest good forward point. -/
def runRow (b : Board) (p : Point) (a : Axis) : Row :=
  ⟨ptAfter p a false (runCount b (b p) p a false), ptAfter p a true (runCount b (b p) p a true)⟩

/-- Specification-side win search, following the spec's words: none if the
point itself is empty, else the full maximal row of the first axis (in the
order vertical, ascending, horizontal, descending) whose run length through
`p` reaches 5, or none if no axis reaches 5. -/
def specWin (b : Board) (p : Point) : Option Row :=
  if b p = Stone.none then Option.none
  else (AXES.find? fun a => 5 ≤ runLen b p a).map fun a => runRow b p a

/-- Replays a list of moves through `make_move` starting from `g`,
requiring every call to succeed. -/
def replayM (g : Game) : List Move → Option Game
  | [] => some g
  | m :: rest =>
    match make_move g m.pos m.stone with
    | (some true, g2) => replayM g2 rest
    | _ => Option.none

/-- Modelled from the spec (§4.3 Format B, decode failure conditions): a
byte stream is bad iff, scanning it while maintaining the current player,
the in-run flag and the replayed occupancy, it contains `0xFF` while
already inside a run, or `0xFE` while not inside a run, or ends with a run
still open, or contains a cell byte whose decoded point is out of the
board or whose replayed placement lands on an occupied cell. -/
def badB : List Nat → Board → Stone → Bool → Bool
  | [], _, _, inRun => inRun
  | byte :: rest, bd, pl, inRun =>
    if byte = 0xff then inRun || badB rest bd pl true
    else if byte = 0xfe then !inRun || badB rest bd (opposite pl) false
    else
      let pos : Point := ⟨byte % BOARD_SIZE, byte / BOARD_SIZE⟩
      !(decide (in_board pos)) || decide (bd pos ≠ Stone.none) ||
        badB rest (bset bd pos pl) (if inRun then pl else opposite pl) inRun

/-- Failure projection of the decode loop: true iff the scan aborts or ends
with a run still open (matching the final `in_sequence` check). -/
def deFails (buf : List Nat) (st : Game × Stone × Bool) : Bool :=
  match deStep buf st with
  | some (_, _, b) => b
  | Option.none => true

mutual

/-- In-order restatement of the `serialize` loop in the state
`in_sequence = false`, about to emit the byte of move `m`: the retroactive
`BEGIN_SEQUENCE` insertion of the source becomes a one-move lookahead. -/
def emitNoSeq (m : Move) : List Move → List Nat
  | [] => [posByte m.pos]
  | m2 :: rest2 =>
    if m2.stone = m.stone then 0xff :: posByte m.pos :: posByte m2.pos :: encBIn m2.stone rest2
    else posByte m.pos :: emitNoSeq m2 rest2
termination_by ms => ms.length * 2 + 1

/-- In-order restatement of the `serialize` loop in the state
`in_sequence = true` with `last_stone = last`. -/
def encBIn (last : Stone) : List Move → List Nat
  | [] => [0xfe]
  | m :: rest =>
    if m.stone = last then posByte m.pos :: encBIn m.stone rest
    else 0xfe :: emitNoSeq m rest
termination_by ms => ms.length * 2

end


/-- Helper for concrete witness games: a black move at `(x, 0)`. -/
def mkB (g : Game) (x : Nat) : Game := (make_move g ⟨x, 0⟩ Stone.black).2

/-- A concrete game with five black stones at `(0,0) .. (4,0)`: the fifth
move completes a horizontal five-in-a-row. -/
def g5win : Game := mkB (mkB (mkB (mkB (mkB emptyGame 0) 1) 2) 3) 4

/-! ### Bit-level lemmas for the src/binary.hpp primitives -/

theorem tbU32 (a i : Nat) : (u32 a).testBit i = (decide (i < 32) && a.testBit i) := by
  unfold u32
  exact Nat.testBit_mod_two_pow a 32 i

theorem tbMask (m : Nat) (hm : m < 2 ^ 32) (f : Nat → Bool)
    (h : ∀ i, i < 32 → m.testBit i = f i) (i : Nat) :
    m.testBit i = (decide (i < 32) && f i) := by
  by_cases hi : i < 32
  · simp [hi, h i hi]
  · have hange : m < 2 ^ i :=
      lt_of_lt_of_le hm (Nat.pow_le_pow_right (by norm_num) (by omega))
    simp [Nat.testBit_lt_two_pow hange, hi]

theorem tb55 (i : Nat) : Nat.testBit 0x55555555 i = (decide (i < 32) && decide (i % 2 = 0)) :=
  tbMask _ (by norm_num) (fun j => decide (j % 2 = 0)) (by decide) i

theorem tb33 (i : Nat) : Nat.testBit 0x33333333 i = (decide (i < 32) && decide (i % 4 < 2)) :=
  tbMask _ (by norm_num) (fun j => decide (j % 4 < 2)) (by decide) i

theorem tb0f (i : Nat) : Nat.testBit 0x0f0f0f0f i = (decide (i < 32) && decide (i % 8 < 4)) :=
  tbMask _ (by norm_num) (fun j => decide (j % 8 < 4)) (by decide) i

theorem tbff00ff (i : Nat) : Nat.testBit 0x00ff00ff i = (decide (i < 32) && decide (i % 16 < 8)) :=
  tbMask _ (by norm_num) (fun j => decide (j % 16 < 8)) (by decide) i

theorem tbffff (i : Nat) : Nat.testBit 0x0000ffff i = (decide (i < 32) && decide (i < 16)) :=
  tbMask _ (by norm_num) (fun j => decide (j < 16)) (by decide) i

theorem testBit_high (x n j : Nat) (hx : x < 2 ^ n) (hj : n ≤ j) : x.testBit j = false :=
  Nat.testBit_lt_two_pow (lt_of_lt_of_le hx (Nat.pow_le_pow_right (by norm_num) hj))

theorem scatter_testBit (x : Nat) (hx : x < 2 ^ 16) (i : Nat) :
    (scatter x).testBit i = (decide (i % 2 = 0) && x.testBit (i / 2)) := by
  have hx16 : ∀ j, 16 ≤ j → x.testBit j = false := fun j hj => testBit_high x 16 j hx hj
  by_cases hi : i < 32
  · interval_cases i <;>
      simp [scatter, Nat.testBit_or, Nat.testBit_and, Nat.testBit_shiftLeft, tbU32,
        tb55, tb33, tb0f, tbff00ff, hx16, -Nat.testBit_zero]
  · have h1 : (scatter x).testBit i = false := by
      refine testBit_high _ 32 i ?_ (by omega)
      calc scatter x ≤ 0x55555555 := Nat.and_le_right
        _ < 2 ^ 32 := by norm_num
    have h2 : x.testBit (i / 2) = false := hx16 _ (by omega)
    simp [h1, h2]

theorem gather_testBit (a i : Nat) :
    (gather a).testBit i = (decide (i < 16) && a.testBit (2 * i)) := by
  by_cases hi : i < 16
  · interval_cases i <;>
      simp [gather, Nat.testBit_or, Nat.testBit_and, Nat.testBit_shiftRight, tbU32,
        tb55, tb33, tb0f, tbff00ff, tbffff, -Nat.testBit_zero]
  · have h1 : (gather a).testBit i = false := by
      refine testBit_high _ 16 i ?_ (by omega)
      calc gather a ≤ 0x0000ffff := Nat.and_le_right
        _ < 2 ^ 16 := by norm_num
    simp [h1, hi]

theorem interleave_fst (x y : Nat) (hx : x < 2 ^ 16) (hy : y < 2 ^ 16) :
    gather (interleave x y) = x := by
  apply Nat.eq_of_testBit_eq
  intro i
  rw [gather_testBit]
  by_cases hi : i < 16
  · interval_cases i <;>
      simp [interleave, Nat.testBit_or, tbU32, Nat.testBit_shiftLeft,
        scatter_testBit x hx, scatter_testBit y hy, -Nat.testBit_zero]
  · simp [hi, testBit_high x 16 i hx (by omega)]

theorem interleave_snd (x y : Nat) (hx : x < 2 ^ 16) (hy : y < 2 ^ 16) :
    gather (interleave x y >>> 1) = y := by
  apply Nat.eq_of_testBit_eq
  intro i
  rw [gather_testBit]
  by_cases hi : i < 16
  · interval_cases i <;>
      simp [interleave, Nat.testBit_or, tbU32, Nat.testBit_shiftLeft, Nat.testBit_shiftRight,
        scatter_testBit x hx, scatter_testBit y hy, -Nat.testBit_zero]
  · simp [hi, testBit_high y 16 i hy (by omega)]

theorem shiftRight1 (n : Nat) : n >>> 1 = n / 2 := by
  have := Nat.shiftRight_succ n 0
  simpa using this

theorem and_two_pow_eq_zero (n k : Nat) (h : n < 2 ^ k) : n &&& 2 ^ k = 0 := by
  apply Nat.eq_of_testBit_eq
  intro i
  simp only [Nat.testBit_and, Nat.zero_testBit, Nat.testBit_two_pow]
  by_cases hik : k = i
  · subst hik; simp [Nat.testBit_lt_two_pow h]
  · simp [hik]

theorem xor_two_pow_of_lt (n k : Nat) (h : n < 2 ^ k) : n ^^^ 2 ^ k = n + 2 ^ k := by
  have hor : n ^^^ 2 ^ k = n ||| 2 ^ k := by
    apply Nat.eq_of_testBit_eq
    intro i
    simp only [Nat.testBit_xor, Nat.testBit_or, Nat.testBit_two_pow]
    by_cases hik : k = i
    · subst hik; simp [Nat.testBit_lt_two_pow h]
    · simp [hik]
  have h2 := Nat.mul_add_lt_is_or h 1
  simp only [Nat.mul_one] at h2
  rw [hor, Nat.lor_comm, ← h2]
  omega

theorem zigzag_rt (n : Int) (h1 : -2 ^ 31 ≤ n) (h2 : n < 2 ^ 31) :
    zigzag_decode (zigzag_encode n) = n := by
  unfold zigzag_encode zigzag_decode toInt32
  by_cases hn : n < 0
  · have ha : (2 * n) % (2 ^ 32 : Int) = 2 * n + 2 ^ 32 := by omega
    rw [ha, if_pos hn]
    have hm1 : ((2 * n + 2 ^ 32).toNat : Int) = 2 * n + 2 ^ 32 := by omega
    set m : Nat := (2 * n + 2 ^ 32).toNat with hm
    have hme : m % 2 = 0 := by omega
    have hu1 : (m ^^^ (2 ^ 32 - 1)) &&& 1 = 1 := by
      rw [Nat.and_one_is_mod, Nat.xor_mod_two_eq]
      omega
    rw [if_pos hu1]
    have hdiv : (m ^^^ (2 ^ 32 - 1)) >>> 1 = (m / 2) ^^^ (2 ^ 31 - 1) := by
      rw [shiftRight1, Nat.xor_div_two]
      norm_num
    rw [hdiv, Nat.xor_assoc]
    have hc : ((2 ^ 31 - 1 : Nat) ^^^ (2 ^ 32 - 1)) = 2 ^ 31 := by decide
    rw [hc]
    have hdlt : m / 2 < 2 ^ 31 := by omega
    rw [xor_two_pow_of_lt _ _ hdlt]
    rw [if_neg (by omega)]
    omega
  · have ha : (2 * n) % (2 ^ 32 : Int) = 2 * n := by omega
    rw [ha, if_neg hn]
    have hm1 : ((2 * n).toNat : Int) = 2 * n := by omega
    set m : Nat := (2 * n).toNat with hm
    rw [Nat.xor_zero]
    have hme : m &&& 1 = 0 := by rw [Nat.and_one_is_mod]; omega
    rw [hme, if_neg (show (0 : Nat) ≠ 1 by omega), Nat.xor_zero, shiftRight1]
    rw [if_pos (show m / 2 < 2 ^ 31 by omega)]
    omega

theorem tb3f80 (i : Nat) :
    Nat.testBit 0x3f80 i = (decide (i < 32) && decide (7 ≤ i ∧ i < 14)) :=
  tbMask _ (by norm_num) (fun j => decide (7 ≤ j ∧ j < 14)) (by decide) i

theorem and_3f80 (v : Nat) : v &&& 0x3f80 = v / 2 ^ 7 % 2 ^ 7 * 2 ^ 7 := by
  apply Nat.eq_of_testBit_eq
  intro i
  rw [Nat.testBit_and, tb3f80, Nat.mul_comm, Nat.testBit_mul_pow_two]
  by_cases h7 : 7 ≤ i
  · rw [Nat.testBit_mod_two_pow]
    have hdiv : v / 2 ^ 7 = v >>> 7 := (Nat.shiftRight_eq_div_pow v 7).symm
    rw [hdiv, Nat.testBit_shiftRight]
    by_cases h14 : i < 14
    · have h32 : i < 32 := by omega
      have heq : 7 + (i - 7) = i := by omega
      have hlt : i - 7 < 7 := by omega
      simp [h7, h14, h32, heq, hlt]
    · have : ¬ (i - 7 < 7) := by omega
      simp [h7, h14, this]
  · simp [h7]

theorem and_7f (v : Nat) : v &&& 0x7f = v % 2 ^ 7 := by
  have h : (0x7f : Nat) = 2 ^ 7 - 1 := by norm_num
  rw [h, Nat.and_pow_two_sub_one_eq_mod]

theorem var_u14_rt (v : Nat) (hv : v < 2 ^ 14) :
    read_var_u14 (write_var_u14 v) 0 = (some v, (write_var_u14 v).length) := by
  have e80 : (0x80 : Nat) = 2 ^ 7 := by norm_num
  by_cases h : v < 128
  · have h0 : v &&& 0x3f80 = 0 := by
      rw [and_3f80, Nat.div_eq_of_lt (show v < 2 ^ 7 by omega)]
      simp
    have h7 : v &&& 0x7f = v := by
      rw [and_7f]
      exact Nat.mod_eq_of_lt (by omega)
    have h80 : v &&& 0x80 = 0 := by
      rw [e80]
      exact and_two_pow_eq_zero v 7 (by omega)
    simp [write_var_u14, read_var_u14, h0, h7, h80]
  · have h0 : v &&& 0x3f80 ≠ 0 := by
      rw [and_3f80]
      have h1 : 1 ≤ v / 2 ^ 7 := by
        rw [Nat.le_div_iff_mul_le (by norm_num)]
        omega
      have h2 : v / 2 ^ 7 < 2 ^ 7 := by
        rw [Nat.div_lt_iff_lt_mul (by norm_num)]
        omega
      rw [Nat.mod_eq_of_lt h2]
      positivity
    have hd2 : v / 128 < 128 := by omega
    have hsr : v >>> 7 = v / 128 := by
      rw [Nat.shiftRight_eq_div_pow]
    have hb1 : (v >>> 7) &&& 0x7f = v / 128 := by
      rw [hsr, and_7f, Nat.mod_eq_of_lt (show v / 128 < 2 ^ 7 by omega)]
    have hmod : v &&& 0x7f = v % 128 := by
      rw [and_7f]
      norm_num
    have hb0hi : ((v % 128 ||| 0x80) &&& 0x80) = 0x80 := by
      rw [e80, Nat.and_distrib_right, and_two_pow_eq_zero _ 7 (show v % 2 ^ 7 < 2 ^ 7 by omega),
        Nat.and_self, Nat.zero_or]
    have hb1hi : (v / 128) &&& 0x80 = 0 := by
      rw [e80]
      exact and_two_pow_eq_zero _ 7 (show v / 128 < 2 ^ 7 by omega)
    have hb0lo : ((v % 128 ||| 0x80) &&& 0x7f) = v % 128 := by
      rw [Nat.and_distrib_right, and_7f, (by decide : (0x80 : Nat) &&& 0x7f = 0), Nat.or_zero]
      omega
    have hval : ((v / 128) <<< 7) ||| (v % 128) = v := by
      rw [Nat.shiftLeft_eq, Nat.mul_comm,
        ← Nat.mul_add_lt_is_or (show v % 128 < 2 ^ 7 by omega) _]
      norm_num
      omega
    simp only [write_var_u14, if_pos h0, hmod, hb1, read_var_u14, List.length_cons,
      List.length_nil, List.getD, List.getElem?_cons_zero, List.getElem?_cons_succ,
      Option.getD_some]
    norm_num [hb0hi, hb0lo, hb1hi, hval]

theorem deinterleave_interleave (x y : Nat) (hx : x < 2 ^ 16) (hy : y < 2 ^ 16) :
    deinterleave (interleave x y) = (x, y) := by
  unfold deinterleave
  rw [interleave_fst x y hx hy, interleave_snd x y hx hy]

set_option maxHeartbeats 2000000 in
theorem pipeRTfin : ∀ (x y : Fin 15) (t : Fin 2),
    decodeMoveA (encodeMoveA x.val y.val t.val) = some ((x.val, y.val), t.val) := by decide

/-- C9: the Format A per-move pipeline composed from the src/binary.hpp
primitives is a round-trip: for every in-board point and player bit the
re-center/zigzag/interleave/shift/varint encoding followed by the inverse
pipeline recovers the original point and player; and in particular
`zigzag_decode` inverts `zigzag_encode` on every 32-bit signed value,
`deinterleave` inverts `interleave` for all 16-bit halves, and
`read_var_u14` after `write_var_u14` returns the value for every 14-bit
input, consuming exactly the bytes written. -/
theorem C9_formatA_pipeline_roundtrip :
    (∀ x y t : Nat, x < 15 → y < 15 → t < 2 →
      decodeMoveA (encodeMoveA x y t) = some ((x, y), t)) ∧
    (∀ n : Int, -2 ^ 31 ≤ n → n < 2 ^ 31 → zigzag_decode (zigzag_encode n) = n) ∧
    (∀ x y : Nat, x < 2 ^ 16 → y < 2 ^ 16 → deinterleave (interleave x y) = (x, y)) ∧
    (∀ v : Nat, v < 2 ^ 14 →
      read_var_u14 (write_var_u14 v) 0 = (some v, (write_var_u14 v).length)) := by
  refine ⟨?_, zigzag_rt, deinterleave_interleave, var_u14_rt⟩
  intro x y t hx hy ht
  exact pipeRTfin ⟨x, hx⟩ ⟨y, hy⟩ ⟨t, ht⟩

/-- Witness for C9 at concrete inputs. -/
theorem C9_formatA_pipeline_roundtrip_witness :
    decodeMoveA (encodeMoveA 3 11 1) = some ((3, 11), 1) ∧
    zigzag_decode (zigzag_encode (-5)) = -5 ∧
    deinterleave (interleave 40000 513) = (40000, 513) ∧
    read_var_u14 (write_var_u14 9000) 0 = (some 9000, (write_var_u14 9000).length) :=
  ⟨C9_formatA_pipeline_roundtrip.1 3 11 1 (by norm_num) (by norm_num) (by norm_num),
   C9_formatA_pipeline_roundtrip.2.1 (-5) (by norm_num) (by norm_num),
   C9_formatA_pipeline_roundtrip.2.2.1 40000 513 (by norm_num) (by norm_num),
   C9_formatA_pipeline_roundtrip.2.2.2 9000 (by norm_num)⟩

/-! ### Game-level lemmas -/

theorem URJ_win (g g2 : Game) (h : URJ g g2) : g2.win = g.win := by
  induction h with
  | refl => rfl
  | und g3 _ ih =>
    unfold undo
    by_cases h0 : g3.index = 0 <;> simp [h0, ih]
  | red g3 _ ih =>
    unfold redo
    by_cases h0 : g3.moves.length ≤ g3.index <;> simp [h0, ih]
  | jmp g3 t _ ih =>
    unfold jump
    by_cases h1 : g3.moves.length < t
    · simp [h1, ih]
    · by_cases h2 : g3.index = t
      · simp [h1, h2, ih]
      · by_cases h3 : t < g3.index <;> simp [h1, h2, h3, ih]

theorem URJ_moves (g g2 : Game) (h : URJ g g2) : g2.moves = g.moves := by
  induction h with
  | refl => rfl
  | und g3 _ ih =>
    unfold undo
    split_ifs <;> simp [ih]
  | red g3 _ ih =>
    unfold redo
    split_ifs <;> simp [ih]
  | jmp g3 t _ ih =>
    unfold jump
    split_ifs <;> simp [ih]

/-- C5: `make_move` on an occupied in-board cell returns `false` and leaves
the whole game state (moves, cursor, cached win, every board cell)
unchanged. -/
theorem C5_make_move_occupied_rejected (g : Game) (p : Point) (s : Stone)
    (hreach : Reachable g) (hp : in_board p) (hocc : g.board p ≠ Stone.none) :
    make_move g p s = (some false, g) := by
  unfold make_move
  simp [hp, hocc]

/-- Witness for C5: placing onto the occupied cell `(0, 0)` of a concrete
reachable game is rejected without any change. -/
theorem C5_make_move_occupied_rejected_witness :
    make_move (mkB emptyGame 0) ⟨0, 0⟩ Stone.white = (some false, mkB emptyGame 0) :=
  C5_make_move_occupied_rejected (mkB emptyGame 0) ⟨0, 0⟩ Stone.white
    (Reachable.mk emptyGame ⟨0, 0⟩ Stone.black Reachable.empty)
    (by decide) (by decide)

/-- C8: `make_move` with an out-of-board point and `jump` past the move
count raise `std::out_of_range` (modelled as `none`) and leave the whole
game state exactly as it was. -/
theorem C8_contract_violations_throw_atomically :
    (∀ (g : Game) (p : Point) (s : Stone), ¬ in_board p →
      make_move g p s = (Option.none, g)) ∧
    (∀ (g : Game) (t : Nat), total_moves g < t → jump g t = (Option.none, g)) := by
  constructor
  · intro g p s hp
    unfold make_move
    simp [hp]
  · intro g t ht
    unfold jump
    simp [total_moves] at ht
    simp [ht]

/-- Witness for C8 at concrete inputs. -/
theorem C8_contract_violations_throw_atomically_witness :
    make_move emptyGame ⟨15, 0⟩ Stone.black = (Option.none, emptyGame) ∧
    jump emptyGame 1 = (Option.none, emptyGame) :=
  ⟨C8_contract_violations_throw_atomically.1 emptyGame ⟨15, 0⟩ Stone.black (by decide),
   C8_contract_violations_throw_atomically.2 emptyGame 1 (by decide)⟩

theorem make_move_success (g : Game) (p : Point) (s : Stone) (g2 : Game)
    (h : make_move g p s = (some true, g2)) :
    in_board p ∧ g.board p = Stone.none ∧
    g2.board = bset g.board p s ∧
    g2.moves = g.moves.take g.index ++ [⟨p, s⟩] ∧
    g2.index = g.index + 1 := by
  unfold make_move at h
  by_cases h1 : in_board p
  · by_cases hocc : g.board p = Stone.none
    · rw [if_neg (not_not_intro h1), if_neg (not_not_intro hocc)] at h
      have hsnd := congrArg Prod.snd h
      dsimp only [] at hsnd
      refine ⟨h1, hocc, ?_, ?_, ?_⟩ <;> rw [← hsnd]
    · rw [if_neg (not_not_intro h1), if_pos hocc] at h
      have hfst := congrArg Prod.fst h
      simp at hfst
  · rw [if_pos h1] at h
    have hfst := congrArg Prod.fst h
    simp at hfst

/-- C3: once a successful `make_move` records a win `w`, then in every
state reached from there by undo/redo/jump the win is visible through
`first_win` exactly when its recorded index is at most the current cursor
index. -/
theorem C3_win_visibility (g0 : Game) (p : Point) (s : Stone) (g1 : Game) (w : Win) (g2 : Game)
    (hmk : make_move g0 p s = (some true, g1)) (hw : g1.win = some w) (hurj : URJ g1 g2) :
    (w.index ≤ g2.index → first_win g2 = some w) ∧
    (g2.index < w.index → first_win g2 = Option.none) := by
  have hwin2 : g2.win = some w := (URJ_win g1 g2 hurj).trans hw
  unfold first_win
  rw [hwin2]
  constructor
  · intro h
    simp [h]
  · intro h
    have hn : ¬ w.index ≤ g2.index := by omega
    simp [hn]

/-- Witness for C3: the fifth black stone at `(4, 0)` records the win at
index 5; it is visible at cursor 5 and retracted by one undo. -/
theorem C3_win_visibility_witness :
    first_win g5win = some ⟨5, ⟨⟨0, 0⟩, ⟨4, 0⟩⟩⟩ ∧
    first_win (undo g5win).2 = Option.none := by
  have h := C3_win_visibility (mkB (mkB (mkB (mkB emptyGame 0) 1) 2) 3) ⟨4, 0⟩ Stone.black
    g5win ⟨5, ⟨⟨0, 0⟩, ⟨4, 0⟩⟩⟩
  exact ⟨(h g5win rfl (by decide) URJ.refl).1 (by decide),
         (h (undo g5win).2 rfl (by decide) (URJ.und g5win URJ.refl)).2 (by decide)⟩

/-- C7: with five moves applied, `jump 2` followed by a successful new move
leaves exactly three moves (the first two plus the new one); the discarded
moves are gone and no undo/redo/jump sequence can change the move record. -/
theorem C7_branch_truncation (g : Game) (p : Point) (s : Stone) (g3 : Game)
    (hlen : g.moves.length = 5) (hidx : g.index = 5)
    (hmk : make_move (jump g 2).2 p s = (some true, g3)) :
    total_moves g3 = 3 ∧ g3.moves = g.moves.take 2 ++ [⟨p, s⟩] ∧
    ∀ g4, URJ g3 g4 → g4.moves = g3.moves := by
  have hj : (jump g 2).2 =
      ⟨unsetIter g.moves g.board g.index (g.index - 2), g.moves, 2, g.win⟩ := by
    unfold jump
    rw [if_neg (by omega), if_neg (by omega), if_pos (by omega)]
  rw [hj] at hmk
  have hf := make_move_success _ p s g3 hmk
  have hmoves : g3.moves = g.moves.take 2 ++ [⟨p, s⟩] := hf.2.2.2.1
  refine ⟨?_, hmoves, fun g4 hurj => URJ_moves g3 g4 hurj⟩
  rw [total_moves, hmoves]
  simp [List.length_take, hlen]

/-- Witness for C7 on a concrete five-move game. -/
theorem C7_branch_truncation_witness :
    total_moves (make_move (jump g5win 2).2 ⟨9, 9⟩ Stone.white).2 = 3 ∧
    (make_move (jump g5win 2).2 ⟨9, 9⟩ Stone.white).2.moves =
      g5win.moves.take 2 ++ [⟨⟨9, 9⟩, Stone.white⟩] ∧
    ∀ g4, URJ (make_move (jump g5win 2).2 ⟨9, 9⟩ Stone.white).2 g4 →
      g4.moves = (make_move (jump g5win 2).2 ⟨9, 9⟩ Stone.white).2.moves := by
  refine C7_branch_truncation g5win ⟨9, 9⟩ Stone.white _ (by decide) (by decide) ?_
  have h1 : (make_move (jump g5win 2).2 ⟨9, 9⟩ Stone.white).1 = some true := by decide
  exact Prod.ext h1 rfl

theorem getD_append_singleton (l : List Move) (m : Move) :
    (l ++ [m]).getD l.length mv0 = m := by
  simp [List.getD, List.get?_concat_length]

/-- C10: `make_move` does not validate the stone argument: placing
`Stone::None` on an empty in-board cell succeeds, appends a ledger entry
and advances the cursor, yet leaves the cell empty, so a second placement
there also succeeds, and `infer_turn` after such a move returns
`Stone::None`. -/
theorem C10_stone_not_validated (g : Game) (p : Point)
    (hle : g.index ≤ g.moves.length) (hp : in_board p) (hemp : g.board p = Stone.none) :
    (make_move g p Stone.none).1 = some true ∧
    (make_move g p Stone.none).2.moves = g.moves.take g.index ++ [⟨p, Stone.none⟩] ∧
    (make_move g p Stone.none).2.index = g.index + 1 ∧
    (make_move g p Stone.none).2.board p = Stone.none ∧
    (∀ s2 : Stone, (make_move (make_move g p Stone.none).2 p s2).1 = some true) ∧
    infer_turn (make_move g p Stone.none).2 = Stone.none := by
  have hstep : (make_move g p Stone.none).2 =
      ⟨bset g.board p Stone.none, g.moves.take g.index ++ [⟨p, Stone.none⟩], g.index + 1,
        (make_move g p Stone.none).2.win⟩ := by
    unfold make_move
    simp [hp, hemp]
  have hcell : (make_move g p Stone.none).2.board p = Stone.none := by
    rw [hstep]
    simp [bset]
  refine ⟨?_, ?_, ?_, hcell, ?_, ?_⟩
  · unfold make_move
    simp [hp, hemp]
  · rw [hstep]
  · rw [hstep]
  · intro s2
    rw [hstep]
    unfold make_move
    simp [hp, bset]
  · unfold infer_turn
    rw [hstep]
    simp only []
    rw [if_neg (by omega)]
    set A := g.moves.take g.index with hA
    have hidx : g.index + 1 - 1 = A.length := by
      rw [hA]
      simp [List.length_take]
      omega
    rw [hidx, getD_append_singleton A ⟨p, Stone.none⟩]
    rfl

/-- Witness for C10 at the empty game and centre point. -/
theorem C10_stone_not_validated_witness :
    (make_move emptyGame ⟨7, 7⟩ Stone.none).1 = some true ∧
    (make_move emptyGame ⟨7, 7⟩ Stone.none).2.moves =
      emptyGame.moves.take emptyGame.index ++ [⟨⟨7, 7⟩, Stone.none⟩] ∧
    (make_move emptyGame ⟨7, 7⟩ Stone.none).2.index = emptyGame.index + 1 ∧
    (make_move emptyGame ⟨7, 7⟩ Stone.none).2.board ⟨7, 7⟩ = Stone.none ∧
    (∀ s2 : Stone, (make_move (make_move emptyGame ⟨7, 7⟩ Stone.none).2 ⟨7, 7⟩ s2).1 = some true) ∧
    infer_turn (make_move emptyGame ⟨7, 7⟩ Stone.none).2 = Stone.none :=
  C10_stone_not_validated emptyGame ⟨7, 7⟩ (by decide) (by decide) (by decide)

/-! ### The board-replay invariant (C2) -/

theorem applyMoves_concat (A : List Move) (m : Move) :
    applyMoves (A ++ [m]) = bset (applyMoves A) m.pos m.stone := by
  unfold applyMoves
  rw [List.foldl_append]
  rfl

theorem take_succ_getD (l : List Move) (n : Nat) (h : n < l.length) :
    l.take (n + 1) = l.take n ++ [l.getD n mv0] := by
  rw [List.take_succ]
  congr 1
  rw [List.getD_eq_getElem l mv0 h, List.getElem?_eq_getElem h]
  rfl

theorem getD_append_left (A B : List Move) (k : Nat) (h : k < A.length) :
    (A ++ B).getD k mv0 = A.getD k mv0 := by
  simp [List.getD, List.getElem?_append, h]

theorem getD_take (l : List Move) (k n : Nat) (h : k < n) :
    (l.take n).getD k mv0 = l.getD k mv0 := by
  simp [List.getD, List.getElem?_take, h]

theorem unset_one_inv (ms : List Move) (B : Board) (i : Nat)
    (hi : 1 ≤ i) (hle : i ≤ ms.length)
    (hB : ∀ q, B q = applyMoves (ms.take i) q) (hok : MovesOK ms) :
    ∀ q, bunset B (ms.getD (i - 1) mv0).pos q = applyMoves (ms.take (i - 1)) q := by
  intro q
  have hsplit : ms.take i = ms.take (i - 1) ++ [ms.getD (i - 1) mv0] := by
    have h2 := take_succ_getD ms (i - 1) (by omega)
    rw [show i - 1 + 1 = i by omega] at h2
    exact h2
  generalize hmd : ms.getD (i - 1) mv0 = md at hsplit
  by_cases hq : q = md.pos
  · have hz : bunset B md.pos md.pos = Stone.none := by
      simp [bunset, bset]
    rw [hq, hz]
    have hnone := hok (i - 1) (by omega)
    rw [hmd] at hnone
    exact hnone.symm
  · have h1 : bunset B md.pos q = B q := by
      simp [bunset, bset, hq]
    have h2 : applyMoves (ms.take i) q = applyMoves (ms.take (i - 1)) q := by
      rw [hsplit, applyMoves_concat]
      simp [bset, hq]
    rw [h1, hB q, h2]

theorem unsetIter_inv (ms : List Move) (hok : MovesOK ms) :
    ∀ n (B : Board) (i : Nat), n ≤ i → i ≤ ms.length →
    (∀ q, B q = applyMoves (ms.take i) q) →
    ∀ q, unsetIter ms B i n q = applyMoves (ms.take (i - n)) q := by
  intro n
  induction n with
  | zero =>
    intro B i _ _ hB q
    simpa using hB q
  | succ k ih =>
    intro B i hn hle hB q
    show unsetIter ms (bunset B (ms.getD (i - 1) mv0).pos) (i - 1) k q = _
    have hstep := unset_one_inv ms B i (by omega) hle hB hok
    have := ih (bunset B (ms.getD (i - 1) mv0).pos) (i - 1) (by omega) (by omega) hstep q
    rw [this]
    congr 2
    omega

theorem setIter_inv (ms : List Move) :
    ∀ n (B : Board) (i : Nat), i + n ≤ ms.length →
    (∀ q, B q = applyMoves (ms.take i) q) →
    ∀ q, setIter ms B i n q = applyMoves (ms.take (i + n)) q := by
  intro n
  induction n with
  | zero =>
    intro B i _ hB q
    simpa using hB q
  | succ k ih =>
    intro B i hle hB q
    show setIter ms (bset B (ms.getD i mv0).pos (ms.getD i mv0).stone) (i + 1) k q = _
    have hB2 : ∀ q2, bset B (ms.getD i mv0).pos (ms.getD i mv0).stone q2 =
        applyMoves (ms.take (i + 1)) q2 := by
      intro q2
      rw [take_succ_getD ms i (by omega), applyMoves_concat]
      by_cases hq : q2 = (ms.getD i mv0).pos
      · simp [bset, hq]
      · simp [bset, hq, hB q2]
    have := ih (bset B (ms.getD i mv0).pos (ms.getD i mv0).stone) (i + 1) (by omega) hB2 q
    rw [this]
    congr 2
    omega

theorem Reachable_inv (g : Game) (h : Reachable g) :
    (∀ q, g.board q = applyMoves (g.moves.take g.index) q) ∧
    MovesOK g.moves ∧ g.index ≤ g.moves.length := by
  induction h with
  | empty =>
    refine ⟨fun q => rfl, ?_, by decide⟩
    intro k hk
    simp [emptyGame] at hk
  | mk g p s _ ih =>
    obtain ⟨ihb, ihok, ihle⟩ := ih
    by_cases hp : in_board p
    · by_cases hocc : g.board p = Stone.none
      · have hfst : (make_move g p s).1 = some true := by
          unfold make_move
          simp [hp, hocc]
        have hf := make_move_success g p s (make_move g p s).2 (Prod.ext hfst rfl)
        obtain ⟨-, -, hb, hm, hi⟩ := hf
        have hlen : (g.moves.take g.index).length = g.index := by
          simp [List.length_take]
          omega
        refine ⟨?_, ?_, ?_⟩
        · intro q
          rw [hb, hm, hi]
          have htake : (g.moves.take g.index ++ [(⟨p, s⟩ : Move)]).take (g.index + 1) =
              g.moves.take g.index ++ [(⟨p, s⟩ : Move)] := by
            apply List.take_of_length_le
            simp [hlen]
          rw [htake, applyMoves_concat]
          by_cases hq : q = p
          · simp [bset, hq]
          · simp [bset, hq, ihb q]
        · rw [hm]
          intro k hk
          simp [hlen] at hk
          by_cases hklt : k < g.index
          · have e1 : (g.moves.take g.index ++ [(⟨p, s⟩ : Move)]).take k =
                g.moves.take k := by
              rw [List.take_append_of_le_length (by omega), List.take_take,
                Nat.min_eq_left (by omega)]
            have e2 : (g.moves.take g.index ++ [(⟨p, s⟩ : Move)]).getD k mv0 =
                g.moves.getD k mv0 := by
              rw [getD_append_left _ _ k (by omega), getD_take _ _ _ hklt]
            rw [e1, e2]
            exact ihok k (by omega)
          · have hk' : k = g.index := by omega
            subst hk'
            have e1 : (g.moves.take g.index ++ [(⟨p, s⟩ : Move)]).take g.index =
                g.moves.take g.index := by
              rw [List.take_append_of_le_length (le_of_eq hlen.symm), List.take_take,
                Nat.min_self]
            have e2 : (g.moves.take g.index ++ [(⟨p, s⟩ : Move)]).getD g.index mv0 =
                (⟨p, s⟩ : Move) := by
              have h3 := getD_append_singleton (g.moves.take g.index) (⟨p, s⟩ : Move)
              rw [hlen] at h3
              exact h3
            rw [e1, e2]
            show applyMoves (g.moves.take g.index) p = Stone.none
            rw [← ihb p]
            exact hocc
        · rw [hm, hi]
          simp [hlen]
      · have : (make_move g p s).2 = g := by
          unfold make_move
          simp [hp, hocc]
        rw [this]
        exact ⟨ihb, ihok, ihle⟩
    · have : (make_move g p s).2 = g := by
        unfold make_move
        simp [hp]
      rw [this]
      exact ⟨ihb, ihok, ihle⟩
  | und g _ ih =>
    obtain ⟨ihb, ihok, ihle⟩ := ih
    by_cases h0 : g.index = 0
    · unfold undo
      rw [if_pos h0]
      exact ⟨ihb, ihok, ihle⟩
    · have hgu : (undo g).2 = ⟨bunset g.board (g.moves.getD (g.index - 1) mv0).pos,
          g.moves, g.index - 1, g.win⟩ := by
        unfold undo
        rw [if_neg h0]
      rw [hgu]
      refine ⟨?_, ihok, show g.index - 1 ≤ g.moves.length by omega⟩
      intro q
      exact unset_one_inv g.moves g.board g.index (by omega) ihle ihb ihok q
  | red g _ ih =>
    obtain ⟨ihb, ihok, ihle⟩ := ih
    by_cases h0 : g.moves.length ≤ g.index
    · unfold redo
      rw [if_pos h0]
      exact ⟨ihb, ihok, ihle⟩
    · have hgr : (redo g).2 = ⟨bset g.board (g.moves.getD g.index mv0).pos
          (g.moves.getD g.index mv0).stone, g.moves, g.index + 1, g.win⟩ := by
        unfold redo
        rw [if_neg h0]
      rw [hgr]
      refine ⟨?_, ihok, show g.index + 1 ≤ g.moves.length by omega⟩
      intro q
      rw [take_succ_getD g.moves g.index (by omega), applyMoves_concat]
      by_cases hq : q = (g.moves.getD g.index mv0).pos
      · simp [bset, hq]
      · simp [bset, hq, ihb q]
  | jmp g t _ ih =>
    obtain ⟨ihb, ihok, ihle⟩ := ih
    by_cases h1 : g.moves.length < t
    · unfold jump
      rw [if_pos h1]
      exact ⟨ihb, ihok, ihle⟩
    · by_cases h2 : g.index = t
      · unfold jump
        rw [if_neg h1, if_pos h2]
        exact ⟨ihb, ihok, ihle⟩
      · by_cases h3 : t < g.index
        · have hgj : (jump g t).2 = ⟨unsetIter g.moves g.board g.index (g.index - t),
              g.moves, t, g.win⟩ := by
            unfold jump
            rw [if_neg h1, if_neg h2, if_pos h3]
          rw [hgj]
          refine ⟨?_, ihok, show t ≤ g.moves.length by omega⟩
          intro q
          show unsetIter g.moves g.board g.index (g.index - t) q = applyMoves (g.moves.take t) q
          have := unsetIter_inv g.moves ihok (g.index - t) g.board g.index (by omega) ihle ihb q
          rw [this]
          congr 2
          omega
        · have hgj : (jump g t).2 = ⟨setIter g.moves g.board g.index (t - g.index),
              g.moves, t, g.win⟩ := by
            unfold jump
            rw [if_neg h1, if_neg h2, if_neg h3]
          rw [hgj]
          refine ⟨?_, ihok, show t ≤ g.moves.length by omega⟩
          intro q
          show setIter g.moves g.board g.index (t - g.index) q = applyMoves (g.moves.take t) q
          have := setIter_inv g.moves (t - g.index) g.board g.index (by omega) ihb q
          rw [this]
          congr 2
          omega

/-- C2: after every sequence of operations starting from the empty game,
the board's occupancy at every in-board point equals the replay of exactly
the past moves onto an empty board. -/
theorem C2_board_replay_invariant (g : Game) (h : Reachable g) (p : Point)
    (hp : in_board p) : g.board p = applyMoves (past_moves g) p :=
  (Reachable_inv g h).1 p

/-- Witness for C2 on a concrete reachable game. -/
theorem C2_board_replay_invariant_witness :
    (undo (mkB emptyGame 3)).2.board ⟨3, 0⟩ =
      applyMoves (past_moves (undo (mkB emptyGame 3)).2) ⟨3, 0⟩ :=
  C2_board_replay_invariant (undo (mkB emptyGame 3)).2
    (Reachable.und (mkB emptyGame 3)
      (Reachable.mk emptyGame ⟨3, 0⟩ Stone.black Reachable.empty))
    ⟨3, 0⟩ (by decide)

/-! ### Scan-loop characterization (C6) -/

theorem ptAfter_shift (p : Point) (a : Axis) (f : Bool) :
    ∀ k, ptAfter p a f (k + 1) = ptAfter (p.adjacent a f) a f k := by
  intro k
  induction k with
  | zero => rfl
  | succ k2 ih =>
    show (ptAfter p a f (k2 + 1)).adjacent a f = (ptAfter (p.adjacent a f) a f k2).adjacent a f
    rw [ih]

theorem stepU32_one (c : Nat) (hc : c < 2 ^ 32 - 1) : stepU32 c 1 = c + 1 := by
  unfold stepU32
  omega

theorem stepU32_neg_one (c : Nat) (hc1 : 1 ≤ c) (hc : c < 2 ^ 32) : stepU32 c (-1) = c - 1 := by
  unfold stepU32
  omega

theorem stepU32_neg_one_zero : stepU32 0 (-1) = 2 ^ 32 - 1 := by
  unfold stepU32
  omega

theorem coord_lt (a : Axis) (q : Point) (hq : in_board q) : coord a q < 15 := by
  cases a
  · exact hq.2
  · exact hq.1
  · exact hq.1
  · exact hq.1

theorem back_coord_pos (q : Point) (a : Axis)
    (hn : in_board (q.adjacent a false)) : 1 ≤ coord a q := by
  by_contra h0
  have hc0 : coord a q = 0 := by omega
  cases a
  · have hy0 : q.y = 0 := hc0
    have hn1 : stepU32 q.y (-1) < 15 := hn.2
    rw [hy0, stepU32_neg_one_zero] at hn1
    omega
  · have hx0 : q.x = 0 := hc0
    have hn1 : stepU32 q.x (-1) < 15 := hn.1
    rw [hx0, stepU32_neg_one_zero] at hn1
    omega
  · have hx0 : q.x = 0 := hc0
    have hn1 : stepU32 q.x (-1) < 15 := hn.1
    rw [hx0, stepU32_neg_one_zero] at hn1
    omega
  · have hx0 : q.x = 0 := hc0
    have hn1 : stepU32 q.x (-1) < 15 := hn.1
    rw [hx0, stepU32_neg_one_zero] at hn1
    omega

theorem adj_coord_true (q : Point) (a : Axis) (hq : in_board q) :
    coord a (q.adjacent a true) = coord a q + 1 := by
  have hlt := coord_lt a q hq
  cases a
  · show stepU32 q.y 1 = q.y + 1
    exact stepU32_one q.y (by simp [coord] at hlt; omega)
  · show stepU32 q.x 1 = q.x + 1
    exact stepU32_one q.x (by simp [coord] at hlt; omega)
  · show stepU32 q.x 1 = q.x + 1
    exact stepU32_one q.x (by simp [coord] at hlt; omega)
  · show stepU32 q.x 1 = q.x + 1
    exact stepU32_one q.x (by simp [coord] at hlt; omega)

theorem adj_coord_false (q : Point) (a : Axis) (hq : in_board q)
    (hn : in_board (q.adjacent a false)) :
    coord a (q.adjacent a false) = coord a q - 1 := by
  have hpos := back_coord_pos q a hn
  have hlt := coord_lt a q hq
  cases a
  · show stepU32 q.y (-1) = q.y - 1
    exact stepU32_neg_one q.y (by simpa [coord] using hpos) (by simp [coord] at hlt; omega)
  · show stepU32 q.x (-1) = q.x - 1
    exact stepU32_neg_one q.x (by simpa [coord] using hpos) (by simp [coord] at hlt; omega)
  · show stepU32 q.x (-1) = q.x - 1
    exact stepU32_neg_one q.x (by simpa [coord] using hpos) (by simp [coord] at hlt; omega)
  · show stepU32 q.x (-1) = q.x - 1
    exact stepU32_neg_one q.x (by simpa [coord] using hpos) (by simp [coord] at hlt; omega)

theorem goodChain_zero (b : Board) (s : Stone) (p : Point) (a : Axis) (f : Bool) :
    goodChain b s p a f 0 := by
  intro j hj h1j
  omega

theorem goodChain_succ_iff (b : Board) (s : Stone) (p : Point) (a : Axis) (f : Bool) (k : Nat) :
    goodChain b s p a f (k + 1) ↔
    ((in_board (p.adjacent a f) ∧ b (p.adjacent a f) = s) ∧
      goodChain b s (p.adjacent a f) a f k) := by
  constructor
  · intro h
    refine ⟨?_, ?_⟩
    · have h1 := h 1 (by omega) (by omega)
      simpa [ptAfter] using h1
    · intro j hj h1j
      have h2 := h (j + 1) (by omega) (by omega)
      rwa [ptAfter_shift] at h2
  · rintro ⟨h1, h⟩ j hj h1j
    match j, h1j with
    | 1, _ =>
      simpa [ptAfter] using h1
    | j2 + 2, _ =>
      rw [show j2 + 2 = (j2 + 1) + 1 by omega, ptAfter_shift]
      exact h (j2 + 1) (by omega) (by omega)

theorem goodChain_bound (b : Board) (s : Stone) (a : Axis) (f : Bool) :
    ∀ k (q : Point), in_board q → goodChain b s q a f k → k ≤ room a f q := by
  intro k
  induction k with
  | zero =>
    intro q _ _
    exact Nat.zero_le _
  | succ k2 ih =>
    intro q hq hgood
    rw [goodChain_succ_iff] at hgood
    obtain ⟨⟨hnb, hns⟩, hrest⟩ := hgood
    have hih := ih (q.adjacent a f) hnb hrest
    have hnlt := coord_lt a (q.adjacent a f) hnb
    cases f
    · have hadj := adj_coord_false q a hq hnb
      have hpos := back_coord_pos q a hnb
      show k2 + 1 ≤ coord a q
      have : k2 ≤ coord a (q.adjacent a false) := hih
      omega
    · have hadj := adj_coord_true q a hq
      show k2 + 1 ≤ 14 - coord a q
      have h14 : coord a (q.adjacent a true) ≤ 14 := by omega
      have : k2 ≤ 14 - coord a (q.adjacent a true) := hih
      omega

theorem scanF_eq (b : Board) (s : Stone) (a : Axis) (f : Bool) :
    ∀ (fuel : Nat) (q : Point), in_board q → room a f q < fuel →
    scanF b s a f fuel q =
      (Nat.findGreatest (goodChain b s q a f) 14,
       ptAfter q a f (Nat.findGreatest (goodChain b s q a f) 14)) := by
  intro fuel
  induction fuel with
  | zero =>
    intro q _ h
    omega
  | succ fl ih =>
    intro q hq hroom
    show (if in_board (q.adjacent a f) ∧ b (q.adjacent a f) = s then
        ((scanF b s a f fl (q.adjacent a f)).1 + 1, (scanF b s a f fl (q.adjacent a f)).2)
      else (0, q)) = _
    by_cases hgood : in_board (q.adjacent a f) ∧ b (q.adjacent a f) = s
    · rw [if_pos hgood]
      have hnb := hgood.1
      have hroomn : room a f (q.adjacent a f) < fl := by
        cases f
        · have hadj := adj_coord_false q a hq hnb
          have hpos := back_coord_pos q a hnb
          have h1 : room a false (q.adjacent a false) = coord a (q.adjacent a false) := rfl
          have h2 : room a false q = coord a q := rfl
          rw [h2] at hroom
          omega
        · have hadj := adj_coord_true q a hq
          have h1 : room a true (q.adjacent a true) = 14 - coord a (q.adjacent a true) := rfl
          have h2 : room a true q = 14 - coord a q := rfl
          rw [h2] at hroom
          have hnlt := coord_lt a (q.adjacent a true) hnb
          omega
      rw [ih (q.adjacent a f) hnb hroomn]
      have hPn : goodChain b s (q.adjacent a f) a f
          (Nat.findGreatest (goodChain b s (q.adjacent a f) a f) 14) :=
        Nat.findGreatest_spec (Nat.zero_le 14) (goodChain_zero b s (q.adjacent a f) a f)
      have hCnb := goodChain_bound b s a f _ (q.adjacent a f) hnb hPn
      have hCn13 : Nat.findGreatest (goodChain b s (q.adjacent a f) a f) 14 ≤ 13 := by
        cases f
        · have hadj := adj_coord_false q a hq hnb
          have hlt := coord_lt a q hq
          have h1 : room a false (q.adjacent a false) = coord a (q.adjacent a false) := rfl
          rw [h1] at hCnb
          omega
        · have hadj := adj_coord_true q a hq
          have h1 : room a true (q.adjacent a true) = 14 - coord a (q.adjacent a true) := rfl
          rw [h1] at hCnb
          omega
      have hPq : goodChain b s q a f (Nat.findGreatest (goodChain b s (q.adjacent a f) a f) 14 + 1) :=
        (goodChain_succ_iff b s q a f _).mpr ⟨hgood, hPn⟩
      have hge : Nat.findGreatest (goodChain b s (q.adjacent a f) a f) 14 + 1 ≤
          Nat.findGreatest (goodChain b s q a f) 14 :=
        Nat.le_findGreatest (by omega) hPq
      have hle : Nat.findGreatest (goodChain b s q a f) 14 ≤
          Nat.findGreatest (goodChain b s (q.adjacent a f) a f) 14 + 1 := by
        by_contra hc
        push_neg at hc
        have hPq2 : goodChain b s q a f (Nat.findGreatest (goodChain b s q a f) 14) :=
          Nat.findGreatest_spec (Nat.zero_le 14) (goodChain_zero b s q a f)
        have hCq14 : Nat.findGreatest (goodChain b s q a f) 14 ≤ 14 := Nat.findGreatest_le 14
        have hsplit : goodChain b s (q.adjacent a f) a f
            (Nat.findGreatest (goodChain b s q a f) 14 - 1) := by
          have h2 : Nat.findGreatest (goodChain b s q a f) 14 =
              (Nat.findGreatest (goodChain b s q a f) 14 - 1) + 1 := by omega
          rw [h2] at hPq2
          exact ((goodChain_succ_iff b s q a f _).mp hPq2).2
        have hk : Nat.findGreatest (goodChain b s (q.adjacent a f) a f) 14 <
            Nat.findGreatest (goodChain b s q a f) 14 - 1 := by omega
        exact Nat.findGreatest_is_greatest hk (by omega) hsplit
      have hCeq : Nat.findGreatest (goodChain b s q a f) 14 =
          Nat.findGreatest (goodChain b s (q.adjacent a f) a f) 14 + 1 := by omega
      rw [hCeq, ptAfter_shift]
    · rw [if_neg hgood]
      have hCq0 : Nat.findGreatest (goodChain b s q a f) 14 = 0 := by
        rw [Nat.findGreatest_eq_zero_iff]
        intro n hn0 hn14 hP
        refine hgood ?_
        have := hP 1 (by omega) (by omega)
        simpa [ptAfter] using this
      rw [hCq0]
      rfl

theorem room_lt_15 (a : Axis) (f : Bool) (q : Point) (hq : in_board q) : room a f q < 15 := by
  have h := coord_lt a q hq
  cases f
  · show coord a q < 15
    exact h
  · show 14 - coord a q < 15
    omega

theorem scan_row_eq (b : Board) (p : Point) (a : Axis) (hp : in_board p) :
    scan_row b p a = (runLen b p a, runRow b p a) := by
  show (1 + (scanF b (b p) a false 15 p).1 + (scanF b (b p) a true 15 p).1,
      (⟨(scanF b (b p) a false 15 p).2, (scanF b (b p) a true 15 p).2⟩ : Row)) = _
  rw [scanF_eq b (b p) a false 15 p hp (room_lt_15 a false p hp),
    scanF_eq b (b p) a true 15 p hp (room_lt_15 a true p hp)]
  rfl

theorem C6_find_win_row_first_axis_maximal_run (b : Board) (p : Point) (hp : in_board p) :
    find_win_row b p = specWin b p := by
  unfold find_win_row specWin
  by_cases h0 : b p = Stone.none
  · rw [if_pos h0, if_pos h0]
  · rw [if_neg h0, if_neg h0]
    have hfun1 : (fun a => decide (5 ≤ (scan_row b p a).1)) =
        (fun a => decide (5 ≤ runLen b p a)) :=
      funext fun a => by rw [scan_row_eq b p a hp]
    have h2 : (AXES.find? fun a => decide (5 ≤ (scan_row b p a).1)) =
        (AXES.find? fun a => decide (5 ≤ runLen b p a)) :=
      congrArg (fun pr => List.find? pr AXES) hfun1
    rw [h2]
    have h3 : (fun a => (scan_row b p a).2) = (fun a => runRow b p a) :=
      funext fun a => by rw [scan_row_eq b p a hp]
    rw [h3]

/-- Witness for C6 on the concrete winning board of `g5win` at `(2, 0)`. -/
theorem C6_find_win_row_first_axis_maximal_run_witness :
    find_win_row g5win.board ⟨2, 0⟩ = specWin g5win.board ⟨2, 0⟩ :=
  C6_find_win_row_first_axis_maximal_run g5win.board ⟨2, 0⟩ (by decide)

/-! ### Decode failure characterization (C4) -/

theorem deStep_badB : ∀ (buf : List Nat) (g : Game) (st : Stone) (sq : Bool),
    deFails buf (g, st, sq) = badB buf g.board st sq := by
  intro buf
  induction buf with
  | nil =>
    intro g st sq
    rfl
  | cons byte rest ih =>
    intro g st sq
    by_cases hff : byte = 0xff
    · subst hff
      cases sq
      · show deFails rest (g, st, true) = (false || badB rest g.board st true)
        rw [Bool.false_or]
        exact ih g st true
      · rfl
    · by_cases hfe : byte = 0xfe
      · subst hfe
        cases sq
        · rfl
        · show deFails rest (g, opposite st, false) = (!true || badB rest g.board (opposite st) false)
          rw [Bool.not_true, Bool.false_or]
          exact ih g (opposite st) false
      · have hun : deStep (byte :: rest) (g, st, sq) =
            (if ¬ in_board ⟨byte % BOARD_SIZE, byte / BOARD_SIZE⟩ then Option.none
             else match make_move g ⟨byte % BOARD_SIZE, byte / BOARD_SIZE⟩ st with
               | (some true, g2) => deStep rest (g2, if sq then st else opposite st, sq)
               | _ => Option.none) := by
          simp only [deStep]
          rw [if_neg hff, if_neg hfe]
        have hbad : badB (byte :: rest) g.board st sq =
            (!(decide (in_board ⟨byte % BOARD_SIZE, byte / BOARD_SIZE⟩)) ||
             decide (g.board ⟨byte % BOARD_SIZE, byte / BOARD_SIZE⟩ ≠ Stone.none) ||
             badB rest (bset g.board ⟨byte % BOARD_SIZE, byte / BOARD_SIZE⟩ st)
               (if sq then st else opposite st) sq) := by
          simp only [badB]
          rw [if_neg hff, if_neg hfe]
        unfold deFails
        rw [hun, hbad]
        by_cases hnb : in_board ⟨byte % BOARD_SIZE, byte / BOARD_SIZE⟩
        · rw [if_neg (not_not_intro hnb)]
          by_cases hocc : g.board ⟨byte % BOARD_SIZE, byte / BOARD_SIZE⟩ = Stone.none
          · have hfst : (make_move g ⟨byte % BOARD_SIZE, byte / BOARD_SIZE⟩ st).1 = some true := by
              unfold make_move
              simp [hnb, hocc]
            have hmk : make_move g ⟨byte % BOARD_SIZE, byte / BOARD_SIZE⟩ st =
                (some true, (make_move g ⟨byte % BOARD_SIZE, byte / BOARD_SIZE⟩ st).2) :=
              Prod.ext hfst rfl
            have hf := make_move_success g ⟨byte % BOARD_SIZE, byte / BOARD_SIZE⟩ st
              (make_move g ⟨byte % BOARD_SIZE, byte / BOARD_SIZE⟩ st).2 hmk
            obtain ⟨-, -, hb, -, -⟩ := hf
            rw [hmk]
            show deFails rest ((make_move g ⟨byte % BOARD_SIZE, byte / BOARD_SIZE⟩ st).2,
              if sq then st else opposite st, sq) = _
            rw [ih, hb]
            simp [hnb, hocc]
          · have hmk : make_move g ⟨byte % BOARD_SIZE, byte / BOARD_SIZE⟩ st =
                (some false, g) := by
              unfold make_move
              simp [hnb, hocc]
            rw [hmk]
            show true = _
            simp [hnb, hocc]
        · rw [if_pos hnb]
          show true = _
          simp [hnb]

/-- C4: `Game::deserialize` fails exactly on the byte streams with `0xFF`
inside a run, `0xFE` outside a run, a run left open at the end, a cell byte
whose decoded point is out of the board, or a replayed placement onto an
occupied cell (these conditions stated from the spec as `badB`); on every
other byte stream it returns a fully built game. -/
theorem C4_deserialize_failure_characterization (buf : List Nat) :
    (deserialize buf = Option.none ↔ badB buf emptyBoard Stone.black false = true) ∧
    (deserialize buf ≠ Option.none ↔ ∃ g, deserialize buf = some g) := by
  have hkey := deStep_badB buf emptyGame Stone.black false
  have hemp : emptyGame.board = emptyBoard := rfl
  rw [hemp] at hkey
  unfold deFails at hkey
  refine ⟨?_, ?_⟩
  · unfold deserialize
    rcases hde : deStep buf (emptyGame, Stone.black, false) with - | ⟨g2, st2, sq2⟩
    · rw [hde] at hkey
      simp at hkey
      simp [hkey]
    · rw [hde] at hkey
      cases sq2
      · simp at hkey
        simp [hkey]
      · simp at hkey
        simp [hkey]
  · rcases deserialize buf with - | g2 <;> simp

/-! ### Format B round-trip (C1) -/

theorem posByte_decode (p : Point) (hp : in_board p) :
    (⟨posByte p % BOARD_SIZE, posByte p / BOARD_SIZE⟩ : Point) = p ∧
    posByte p < 225 := by
  obtain ⟨hx, hy⟩ := hp
  rw [BOARD_SIZE] at hx hy
  unfold posByte BOARD_SIZE
  constructor
  · have h1 : (p.y * 15 + p.x) % 15 = p.x := by omega
    have h2 : (p.y * 15 + p.x) / 15 = p.y := by omega
    rw [h1, h2]
  · omega

theorem stone_opposite_of_ne (s1 s2 : Stone) (h1 : s1 ≠ Stone.none) (h2 : s2 ≠ Stone.none)
    (hne : s2 ≠ s1) : s2 = opposite s1 := by
  cases s1 <;> cases s2 <;> simp [opposite] at *

theorem replayM_facts : ∀ (ms : List Move) (g0 g : Game),
    g0.index = g0.moves.length → replayM g0 ms = some g →
    g.moves = g0.moves ++ ms ∧ g.index = g.moves.length := by
  intro ms
  induction ms with
  | nil =>
    intro g0 g hidx h
    have hg : g0 = g := by
      have : some g0 = some g := h
      exact Option.some.injEq _ _ ▸ (by injection this)
    subst hg
    simp [hidx]
  | cons m rest ih =>
    intro g0 g hidx h
    unfold replayM at h
    rcases hmk : make_move g0 m.pos m.stone with ⟨ob, g1⟩
    rw [hmk] at h
    match ob, h with
    | some true, h =>
      have hf := make_move_success g0 m.pos m.stone g1 hmk
      obtain ⟨-, -, -, hm1, hi1⟩ := hf
      have htake : g0.moves.take g0.index = g0.moves := by
        rw [hidx, List.take_length]
      rw [htake] at hm1
      have hrec := ih g1 g (by rw [hi1, hm1]; simp [hidx]) h
      obtain ⟨hrm, hri⟩ := hrec
      refine ⟨?_, hri⟩
      rw [hrm, hm1]
      simp

theorem qInsert_before_last (buf0 : List Nat) (b c : Nat) :
    qInsert (buf0 ++ [b]) (((buf0 ++ [b]).length : Int) - 1) c = buf0 ++ [c, b] := by
  unfold qInsert
  have hlen : ((buf0 ++ [b]).length : Int) - 1 = (buf0.length : Int) := by
    simp
  rw [hlen]
  rw [if_neg (by omega), if_neg (by simp)]
  have h1 : (buf0.length : Int).toNat = buf0.length := by omega
  rw [h1, List.take_left, List.drop_left]

theorem serLoop_bridge : ∀ (n : Nat) (rest : List Move), rest.length ≤ n →
    (∀ (m : Move) (buf0 : List Nat),
      serLoop rest m.stone false (buf0 ++ [posByte m.pos]) = buf0 ++ emitNoSeq m rest) ∧
    (∀ (last : Stone) (buf : List Nat),
      serLoop rest last true buf = buf ++ encBIn last rest) := by
  intro n
  induction n with
  | zero =>
    intro rest hlen
    have : rest = [] := List.length_eq_zero.mp (by omega)
    subst this
    constructor
    · intro m buf0
      simp [serLoop, emitNoSeq]
    · intro last buf
      simp [serLoop, encBIn]
  | succ k ih =>
    intro rest hlen
    match rest with
    | [] =>
      constructor
      · intro m buf0
        simp [serLoop, emitNoSeq]
      · intro last buf
        simp [serLoop, encBIn]
    | m2 :: rest2 =>
      have hlen2 : rest2.length ≤ k := by
        simp at hlen
        omega
      constructor
      · intro m buf0
        by_cases heq : m.stone = m2.stone
        · show serLoop rest2 m2.stone
              (if m.stone = m2.stone then
                if false then ((buf0 ++ [posByte m.pos]), false)
                else (qInsert (buf0 ++ [posByte m.pos])
                  (((buf0 ++ [posByte m.pos]).length : Int) - 1) 0xff, true)
              else if false then ((buf0 ++ [posByte m.pos]) ++ [0xfe], false)
                else ((buf0 ++ [posByte m.pos]), false)).2
              ((if m.stone = m2.stone then
                if false then ((buf0 ++ [posByte m.pos]), false)
                else (qInsert (buf0 ++ [posByte m.pos])
                  (((buf0 ++ [posByte m.pos]).length : Int) - 1) 0xff, true)
              else if false then ((buf0 ++ [posByte m.pos]) ++ [0xfe], false)
                else ((buf0 ++ [posByte m.pos]), false)).1 ++ [posByte m2.pos]) =
            buf0 ++ emitNoSeq m (m2 :: rest2)
          rw [if_pos heq, if_neg (by simp), qInsert_before_last]
          have hB2 := (ih rest2 hlen2).2 m2.stone ((buf0 ++ [0xff, posByte m.pos]) ++ [posByte m2.pos])
          rw [hB2]
          simp only [emitNoSeq]
          rw [if_pos heq.symm]
          simp
        · show serLoop rest2 m2.stone
              (if m.stone = m2.stone then
                if false then ((buf0 ++ [posByte m.pos]), false)
                else (qInsert (buf0 ++ [posByte m.pos])
                  (((buf0 ++ [posByte m.pos]).length : Int) - 1) 0xff, true)
              else if false then ((buf0 ++ [posByte m.pos]) ++ [0xfe], false)
                else ((buf0 ++ [posByte m.pos]), false)).2
              ((if m.stone = m2.stone then
                if false then ((buf0 ++ [posByte m.pos]), false)
                else (qInsert (buf0 ++ [posByte m.pos])
                  (((buf0 ++ [posByte m.pos]).length : Int) - 1) 0xff, true)
              else if false then ((buf0 ++ [posByte m.pos]) ++ [0xfe], false)
                else ((buf0 ++ [posByte m.pos]), false)).1 ++ [posByte m2.pos]) =
            buf0 ++ emitNoSeq m (m2 :: rest2)
          rw [if_neg heq, if_neg (by simp)]
          have hB1 := (ih rest2 hlen2).1 m2 (buf0 ++ [posByte m.pos])
          rw [hB1]
          simp only [emitNoSeq]
          rw [if_neg (fun h => heq h.symm)]
          simp
      · intro last buf
        by_cases heq : last = m2.stone
        · show serLoop rest2 m2.stone
              (if last = m2.stone then
                if true then (buf, true)
                else (qInsert buf ((buf.length : Int) - 1) 0xff, true)
              else if true then (buf ++ [0xfe], false) else (buf, true)).2
              ((if last = m2.stone then
                if true then (buf, true)
                else (qInsert buf ((buf.length : Int) - 1) 0xff, true)
              else if true then (buf ++ [0xfe], false) else (buf, true)).1 ++ [posByte m2.pos]) =
            buf ++ encBIn last (m2 :: rest2)
          rw [if_pos heq, if_pos (by simp)]
          have hB2 := (ih rest2 hlen2).2 m2.stone (buf ++ [posByte m2.pos])
          rw [hB2]
          simp only [encBIn]
          rw [if_pos heq.symm]
          simp
        · show serLoop rest2 m2.stone
              (if last = m2.stone then
                if true then (buf, true)
                else (qInsert buf ((buf.length : Int) - 1) 0xff, true)
              else if true then (buf ++ [0xfe], false) else (buf, true)).2
              ((if last = m2.stone then
                if true then (buf, true)
                else (qInsert buf ((buf.length : Int) - 1) 0xff, true)
              else if true then (buf ++ [0xfe], false) else (buf, true)).1 ++ [posByte m2.pos]) =
            buf ++ encBIn last (m2 :: rest2)
          rw [if_neg heq, if_pos (by simp)]
          have hB1 := (ih rest2 hlen2).1 m2 (buf ++ [0xfe])
          rw [hB1]
          simp only [encBIn]
          rw [if_neg (fun h => heq h.symm)]
          simp

theorem deStep_append : ∀ (xs ys : List Nat) (st : Game × Stone × Bool),
    deStep (xs ++ ys) st = (deStep xs st).bind (fun st2 => deStep ys st2) := by
  intro xs
  induction xs with
  | nil =>
    intro ys st
    rfl
  | cons byte rest ih =>
    intro ys st
    rcases st with ⟨g, stone, inSeq⟩
    show deStep (byte :: (rest ++ ys)) (g, stone, inSeq) = _
    by_cases hff : byte = 0xff
    · subst hff
      cases inSeq
      · show deStep (rest ++ ys) (g, stone, true) = _
        rw [ih]
        rfl
      · rfl
    · by_cases hfe : byte = 0xfe
      · subst hfe
        cases inSeq
        · rfl
        · show deStep (rest ++ ys) (g, opposite stone, false) = _
          rw [ih]
          rfl
      · have hun : ∀ (tail : List Nat), deStep (byte :: tail) (g, stone, inSeq) =
            (if ¬ in_board ⟨byte % BOARD_SIZE, byte / BOARD_SIZE⟩ then Option.none
             else match make_move g ⟨byte % BOARD_SIZE, byte / BOARD_SIZE⟩ stone with
               | (some true, g2) => deStep tail (g2, if inSeq then stone else opposite stone, inSeq)
               | _ => Option.none) := by
          intro tail
          simp only [deStep]
          rw [if_neg hff, if_neg hfe]
        rw [hun (rest ++ ys), hun rest]
        by_cases hnb : in_board ⟨byte % BOARD_SIZE, byte / BOARD_SIZE⟩
        · rw [if_neg (not_not_intro hnb), if_neg (not_not_intro hnb)]
          rcases hmk : make_move g ⟨byte % BOARD_SIZE, byte / BOARD_SIZE⟩ stone with ⟨ob, g2⟩
          match ob with
          | some true =>
            show deStep (rest ++ ys) (g2, if inSeq = true then stone else opposite stone, inSeq) =
              (deStep rest (g2, if inSeq = true then stone else opposite stone, inSeq)).bind
                (fun st2 => deStep ys st2)
            exact ih ys (g2, if inSeq = true then stone else opposite stone, inSeq)
          | some false =>
            rfl
          | Option.none =>
            rfl
        · rw [if_pos hnb, if_pos hnb]
          rfl

theorem replayM_cons (G : Game) (m : Move) (rest : List Move) (Gf : Game)
    (h : replayM G (m :: rest) = some Gf) :
    ∃ G1, make_move G m.pos m.stone = (some true, G1) ∧ replayM G1 rest = some Gf := by
  unfold replayM at h
  rcases hmk : make_move G m.pos m.stone with ⟨ob, G1⟩
  rw [hmk] at h
  rcases ob with - | b
  · simp at h
  · cases b
    · simp at h
    · exact ⟨G1, rfl, h⟩

theorem replayM_nil_eq (G Gf : Game) (h : replayM G [] = some Gf) : G = Gf := by
  unfold replayM at h
  injection h

theorem deStep_posByte (tail : List Nat) (G : Game) (stone : Stone) (sq : Bool)
    (m : Move) (G1 : Game) (hmk : make_move G m.pos stone = (some true, G1))
    (hnb : in_board m.pos) :
    deStep (posByte m.pos :: tail) (G, stone, sq) =
      deStep tail (G1, if sq then stone else opposite stone, sq) := by
  obtain ⟨hpos, hlt⟩ := posByte_decode m.pos hnb
  simp only [deStep]
  rw [if_neg (by omega), if_neg (by omega), hpos, if_neg (not_not_intro hnb), hmk]

theorem deStep_decode : ∀ (n : Nat) (rest : List Move), rest.length ≤ n →
    (∀ (m : Move) (G Gf : Game), m.stone ≠ Stone.none →
      (∀ m2 ∈ rest, m2.stone ≠ Stone.none) →
      replayM G (m :: rest) = some Gf →
      ∃ st, deStep (emitNoSeq m rest) (G, m.stone, false) = some (Gf, st, false)) ∧
    (∀ (last : Stone) (G Gf : Game), last ≠ Stone.none →
      (∀ m2 ∈ rest, m2.stone ≠ Stone.none) →
      replayM G rest = some Gf →
      ∃ st, deStep (encBIn last rest) (G, last, true) = some (Gf, st, false)) := by
  have hemitnil : ∀ (m : Move) (G Gf : Game), replayM G [m] = some Gf →
      ∃ st, deStep (emitNoSeq m []) (G, m.stone, false) = some (Gf, st, false) := by
    intro m G Gf hrep
    obtain ⟨G1, hmk, hrep1⟩ := replayM_cons G m [] Gf hrep
    have hnb := (make_move_success G m.pos m.stone G1 hmk).1
    refine ⟨opposite m.stone, ?_⟩
    simp only [emitNoSeq]
    rw [deStep_posByte [] G m.stone false m G1 hmk hnb]
    rw [replayM_nil_eq G1 Gf hrep1]
    rfl
  have hencnil : ∀ (last : Stone) (G Gf : Game), replayM G [] = some Gf →
      ∃ st, deStep (encBIn last []) (G, last, true) = some (Gf, st, false) := by
    intro last G Gf hrep
    refine ⟨opposite last, ?_⟩
    simp only [encBIn]
    rw [replayM_nil_eq G Gf hrep]
    rfl
  intro n
  induction n with
  | zero =>
    intro rest hlen
    have : rest = [] := List.length_eq_zero.mp (by omega)
    subst this
    exact ⟨fun m G Gf _ _ hrep => hemitnil m G Gf hrep,
           fun last G Gf _ _ hrep => hencnil last G Gf hrep⟩
  | succ k ih =>
    intro rest hlen
    match rest with
    | [] =>
      exact ⟨fun m G Gf _ _ hrep => hemitnil m G Gf hrep,
             fun last G Gf _ _ hrep => hencnil last G Gf hrep⟩
    | m2 :: rest2 =>
      have hlen2 : rest2.length ≤ k := by
        simp at hlen
        omega
      constructor
      · intro m G Gf hm hrest hrep
        obtain ⟨G1, hmk, hrep1⟩ := replayM_cons G m (m2 :: rest2) Gf hrep
        have hnb := (make_move_success G m.pos m.stone G1 hmk).1
        obtain ⟨G2, hmk2, hrep2⟩ := replayM_cons G1 m2 rest2 Gf hrep1
        have hnb2 := (make_move_success G1 m2.pos m2.stone G2 hmk2).1
        by_cases heq : m2.stone = m.stone
        · simp only [emitNoSeq]
          rw [if_pos heq]
          show ∃ st, deStep (posByte m.pos :: posByte m2.pos :: encBIn m2.stone rest2)
            (G, m.stone, true) = some (Gf, st, false)
          rw [deStep_posByte _ G m.stone true m G1 hmk hnb]
          show ∃ st, deStep (posByte m2.pos :: encBIn m2.stone rest2)
            (G1, m.stone, true) = some (Gf, st, false)
          have hmk2a : make_move G1 m2.pos m.stone = (some true, G2) := by
            rw [← heq]
            exact hmk2
          rw [deStep_posByte _ G1 m.stone true m2 G2 hmk2a hnb2]
          show ∃ st, deStep (encBIn m2.stone rest2) (G2, m.stone, true) = some (Gf, st, false)
          rw [show m.stone = m2.stone from heq.symm]
          exact (ih rest2 hlen2).2 m2.stone G2 Gf (fun h => hm (heq ▸ h))
            (fun m3 hm3 => hrest m3 (List.mem_cons_of_mem m2 hm3)) hrep2
        · simp only [emitNoSeq]
          rw [if_neg heq]
          rw [deStep_posByte _ G m.stone false m G1 hmk hnb]
          have hop : m2.stone = opposite m.stone :=
            stone_opposite_of_ne m.stone m2.stone hm (hrest m2 (List.mem_cons_self m2 rest2)) heq
          show ∃ st, deStep (emitNoSeq m2 rest2) (G1, opposite m.stone, false) =
            some (Gf, st, false)
          rw [← hop]
          exact (ih rest2 hlen2).1 m2 G1 Gf (hrest m2 (List.mem_cons_self m2 rest2))
            (fun m3 hm3 => hrest m3 (List.mem_cons_of_mem m2 hm3)) hrep1
      · intro last G Gf hlast hrest hrep
        obtain ⟨G1, hmk2, hrep1⟩ := replayM_cons G m2 rest2 Gf hrep
        have hnb2 := (make_move_success G m2.pos m2.stone G1 hmk2).1
        by_cases heq : m2.stone = last
        · simp only [encBIn]
          rw [if_pos heq]
          have hmk2a : make_move G m2.pos last = (some true, G1) := by
            rw [← heq]
            exact hmk2
          rw [deStep_posByte _ G last true m2 G1 hmk2a hnb2]
          show ∃ st, deStep (encBIn m2.stone rest2) (G1, last, true) = some (Gf, st, false)
          rw [show last = m2.stone from heq.symm]
          exact (ih rest2 hlen2).2 m2.stone G1 Gf (heq ▸ hrest m2 (List.mem_cons_self m2 rest2))
            (fun m3 hm3 => hrest m3 (List.mem_cons_of_mem m2 hm3)) hrep1
        · simp only [encBIn]
          rw [if_neg heq]
          have hop : m2.stone = opposite last :=
            stone_opposite_of_ne last m2.stone hlast (hrest m2 (List.mem_cons_self m2 rest2)) heq
          show ∃ st, deStep (emitNoSeq m2 rest2) (G, opposite last, false) = some (Gf, st, false)
          rw [← hop]
          exact (ih rest2 hlen2).1 m2 G Gf (hrest m2 (List.mem_cons_self m2 rest2))
            (fun m3 hm3 => hrest m3 (List.mem_cons_of_mem m2 hm3)) hrep

/-- Counterexample to C1 as stated: one successful `make_move` with
`Stone::None` (accepted, see C10) yields a game whose serialization does
not decode at all, because the encoder's retroactive `BEGIN_SEQUENCE`
insert at position -1 is dropped and the decoder then rejects the
unmatched `END_SEQUENCE`. -/
theorem C1_roundtrip_counterexample :
    replayM emptyGame [⟨⟨7, 7⟩, Stone.none⟩] = some (make_move emptyGame ⟨7, 7⟩ Stone.none).2 ∧
    (make_move emptyGame ⟨7, 7⟩ Stone.none).2.index =
      (make_move emptyGame ⟨7, 7⟩ Stone.none).2.moves.length ∧
    deserialize (serialize (make_move emptyGame ⟨7, 7⟩ Stone.none).2) = Option.none := by
  refine ⟨rfl, rfl, ?_⟩
  rfl

/-- C1 (amended): for every game built from the empty game by successful
`make_move` calls whose stones are Black or White (no `Stone::None` moves)
with no undo/branching, deserializing the serialization succeeds and
returns a game with the same move sequence and cursor index. -/
theorem C1_roundtrip_blackwhite (ms : List Move) (g : Game)
    (hreplay : replayM emptyGame ms = some g)
    (hstones : ∀ m ∈ ms, m.stone ≠ Stone.none) :
    ∃ g2, deserialize (serialize g) = some g2 ∧ g2.moves = g.moves ∧ g2.index = g.index := by
  obtain ⟨hmoves, hidx⟩ := replayM_facts ms emptyGame g rfl hreplay
  have hmoves2 : g.moves = ms := by simpa [emptyGame] using hmoves
  cases ms with
  | nil =>
    have hg : emptyGame = g := replayM_nil_eq _ _ hreplay
    rw [← hg]
    exact ⟨emptyGame, rfl, rfl, rfl⟩
  | cons m0 rest =>
    have hm0 : m0.stone ≠ Stone.none := hstones m0 (List.mem_cons_self m0 rest)
    have hpast : past_moves g = m0 :: rest := by
      unfold past_moves
      rw [hidx, List.take_length, hmoves2]
    have hser : serialize g =
        (if m0.stone = Stone.white then [0xff, 0xfe] else []) ++ emitNoSeq m0 rest := by
      unfold serialize
      rw [hpast]
      show serLoop (m0 :: rest) Stone.none false
        (if m0.stone = Stone.white then [0xff, 0xfe] else []) = _
      set bufPre := (if m0.stone = Stone.white then [0xff, 0xfe] else []) with hbuf
      show serLoop rest m0.stone
          (if Stone.none = m0.stone then
            if false then (bufPre, false)
            else (qInsert bufPre ((bufPre.length : Int) - 1) 0xff, true)
          else if false then (bufPre ++ [0xfe], false) else (bufPre, false)).2
          ((if Stone.none = m0.stone then
            if false then (bufPre, false)
            else (qInsert bufPre ((bufPre.length : Int) - 1) 0xff, true)
          else if false then (bufPre ++ [0xfe], false) else (bufPre, false)).1 ++
            [posByte m0.pos]) = bufPre ++ emitNoSeq m0 rest
      rw [if_neg (fun h => hm0 h.symm), if_neg (by simp)]
      exact (serLoop_bridge rest.length rest le_rfl).1 m0 bufPre
    have hdec := (deStep_decode rest.length rest le_rfl).1 m0 emptyGame g hm0
      (fun m2 h => hstones m2 (List.mem_cons_of_mem m0 h)) hreplay
    obtain ⟨stf, hdec⟩ := hdec
    have hpre : deStep (if m0.stone = Stone.white then [0xff, 0xfe] else [])
        (emptyGame, Stone.black, false) = some (emptyGame, m0.stone, false) := by
      by_cases hw : m0.stone = Stone.white
      · rw [if_pos hw, hw]
        rfl
      · rw [if_neg hw]
        have hb : m0.stone = Stone.black := by
          cases hms : m0.stone
          · exact absurd hms hm0
          · rfl
          · exact absurd hms hw
        rw [hb]
        rfl
    refine ⟨g, ?_, rfl, rfl⟩
    unfold deserialize
    rw [hser, deStep_append, hpre]
    show (match deStep (emitNoSeq m0 rest) (emptyGame, m0.stone, false) with
      | some (g2, _, false) => some g2
      | some (_, _, true) => Option.none
      | Option.none => Option.none) = some g
    rw [hdec]

/-- Witness for the amended C1 on a concrete two-move game. -/
theorem C1_roundtrip_blackwhite_witness :
    ∃ g2, deserialize (serialize
        (make_move (make_move emptyGame ⟨7, 7⟩ Stone.black).2 ⟨8, 8⟩ Stone.white).2) = some g2 ∧
      g2.moves = (make_move (make_move emptyGame ⟨7, 7⟩ Stone.black).2 ⟨8, 8⟩ Stone.white).2.moves ∧
      g2.index = (make_move (make_move emptyGame ⟨7, 7⟩ Stone.black).2 ⟨8, 8⟩ Stone.white).2.index :=
  C1_roundtrip_blackwhite [⟨⟨7, 7⟩, Stone.black⟩, ⟨⟨8, 8⟩, Stone.white⟩]
    (make_move (make_move emptyGame ⟨7, 7⟩ Stone.black).2 ⟨8, 8⟩ Stone.white).2
    rfl (by decide)

/-- Witness for C4 on the concrete stream consisting of a lone open
run-begin marker. -/
theorem C4_deserialize_failure_characterization_witness :
    (deserialize [0xff] = Option.none ↔ badB [0xff] emptyBoard Stone.black false = true) ∧
    (deserialize [0xff] ≠ Option.none ↔ ∃ g, deserialize [0xff] = some g) :=
  C4_deserialize_failure_characterization [0xff]
